import Mathlib

/-!
# Verification of the barsPlus core (data reshaper, topological sorter, layout, label engine)

This file gives a shallow embedding, in Lean 4, of the data-transformation core of the
barsPlus chart extension (`ldw-barsPlus.js`):

* the data reshaper `initData` (0/1/2-dimension tabular input → Categories, Segments,
  global secondary order, deltas),
* the topological sorter `toposort` used to reconcile secondary-category orderings,
* the margin/legend geometry part of `initChart`,
* the label engine `barText` (text-metric calls are modelled as oracle functions).

JavaScript numbers are modelled as rationals (`ℚ`).  JavaScript's `undefined`
obtained from out-of-range array reads is modelled with default values (`List.getD`);
theorems carry the well-formedness hypotheses that make those reads in range.
The `toposort` recursion is made total with a fuel parameter; a lemma below shows the
chosen fuel is always sufficient, so fuel exhaustion never occurs.
-/

namespace BarsPlus

/-- One cell of a raw data row (a Qlik hypercube cell): element id, numeric value,
display text. -/
structure Cell where
  qElemNumber : Int := -1
  qNum : ℚ := 0
  qText : String := ""
deriving DecidableEq, Inhabited

/-- A raw data row is an ordered list of cells. -/
abbrev Row := List Cell

/-- The selection key attached to a segment: a scalar element number for one dimension,
a pair for two dimensions, or the empty array `[]` assigned in `initData`'s
absent-label branch. -/
inductive ElemKey where
  | scalar : Int → ElemKey
  | pair : Int → Int → ElemKey
  | emptyArr : ElemKey
deriving DecidableEq, Inhabited

/-- A stacked bar piece as produced by `initData`. -/
structure Segment where
  dim1 : String := ""
  dim2 : String
  offset : ℚ
  qNum : ℚ
  qText : String
  qTextPct : String := ""
  qElemNumber : ElemKey
deriving DecidableEq, Inhabited

/-- A primary-dimension category: label, cumulative stack height, and (in
two-dimension mode only) the ordered list of segments.  In one-dimension mode the
JavaScript object carries no `values` field, modelled here by `none`. -/
structure Category where
  dim1 : String := ""
  offset : ℚ := 0
  values : Option (List Segment) := none
deriving DecidableEq, Inhabited

/-- A period-over-period delta record. -/
structure Delta where
  dim1p : String
  dim1c : String
  dim2 : String
  delta : ℚ
  deltaPct : ℚ
  points : List ℚ
deriving DecidableEq, Inhabited

/-- The mutable chart object `g` (`this` in the source), restricted to the fields the
data reshaper reads and writes. -/
structure G where
  rawData : List Row := []
  defDims : Nat := 0
  defMeas : Nat := 0
  measures : List String := []
  normalized : Bool := false
  showDeltas : Bool := false
  data : List Category := []
  flatData : List Segment := []
  allDim2 : List String := []
  allCol2 : List Nat := []
  nDims : Nat := 0
  deltas : List Delta := []
deriving DecidableEq, Inhabited

/-! ## Small JavaScript-style list helpers -/

/-- `Array.prototype.indexOf`: first index of `a` in `l`, or `-1`. -/
def jsIndexOf {α : Type _} [DecidableEq α] : List α → α → Int
  | [], _ => -1
  | x :: xs, a =>
    if x = a then 0
    else
      let r := jsIndexOf xs a
      if r = -1 then -1 else r + 1

/-- The `if (l.indexOf(x) == -1) l.push(x)` accumulation pattern: distinct values in
first-seen order. -/
def firstSeen {α : Type _} [DecidableEq α] (l : List α) : List α :=
  l.foldl (fun acc x => if x ∈ acc then acc else acc ++ [x]) []

/-- Stable insertion into a list sorted by an integer key (used to model
`Array.prototype.sort` with the `indexOf`-comparing comparator, which returns
`-1/1/0` and so is a stable sort by that key). -/
def insertByIdx {α : Type _} (idx : α → Int) (x : α) : List α → List α
  | [] => [x]
  | y :: ys => if idx x < idx y then x :: y :: ys else y :: insertByIdx idx x ys

/-- Stable sort by an integer key. -/
def sortByIdx {α : Type _} (idx : α → Int) : List α → List α
  | [] => []
  | x :: xs => insertByIdx idx x (sortByIdx idx xs)

/-! ## Topological sorter (`toposort`, marcelklehr/toposort as inlined in the source)

The DFS `visit` recursion is made total with a fuel parameter; `toposort` supplies
fuel `nodes.length + 2`, which is proved sufficient below (each nested call marks a
previously unvisited index, and there are at most `nodes.length + 1` markable
indices, counting the `-1` produced by `indexOf` misses). -/

inductive TopoErr where
  | fuelOut : TopoErr
  | cyclic : TopoErr
deriving DecidableEq, Inhabited

/-- State of the sort: the dictionary `visited` (keyed by node index, including the
`-1` that `indexOf` yields for unknown children) and the output array `sorted`.
The source fills `sorted[--cursor]` from the right; we model it by prepending to
`acc` at each completion, which yields the same left-to-right list. -/
structure TopoState (α : Type _) where
  visited : List Int
  acc : List α
deriving DecidableEq

/-- The recursive `visit(node, i, predecessors)`.  Outgoing edges are traversed in
reverse array order (`do { child = outgoing[--i][1]; ... } while (i)`). -/
def visitF {α : Type _} [DecidableEq α] (edges : List (α × α)) (nodes : List α) :
    Nat → α → Int → List α → TopoState α → Except TopoErr (TopoState α)
  | 0, _, _, _, _ => .error .fuelOut
  | fuel + 1, node, i, preds, st =>
    if node ∈ preds then .error .cyclic
    else if i ∈ st.visited then .ok st
    else
      match (((edges.filter (fun e => decide (e.1 = node))).reverse).map (fun e => e.2)).foldlM
          (fun s c => visitF edges nodes fuel c (jsIndexOf nodes c) (preds ++ [node]) s)
          ⟨i :: st.visited, st.acc⟩ with
      | .error e => .error e
      | .ok st2 => .ok ⟨st2.visited, node :: st2.acc⟩

/-- `toposort(nodes, edges)` with explicit fuel: the main loop visits indices from
`nodes.length - 1` down to `0`, skipping already-visited ones. -/
def toposortFuel {α : Type _} [DecidableEq α] (fuel : Nat) (nodes : List α)
    (edges : List (α × α)) : Except TopoErr (List α) :=
  match nodes.enum.reverse.foldlM
      (fun (s : TopoState α) (pr : Nat × α) =>
        if (pr.1 : Int) ∈ s.visited then Except.ok s
        else visitF edges nodes fuel pr.2 (pr.1 : Int) [] s)
      ⟨[], []⟩ with
  | .error e => .error e
  | .ok st => .ok st.acc

/-- The `toposort` method of the chart object. -/
def toposort {α : Type _} [DecidableEq α] (nodes : List α) (edges : List (α × α)) :
    Except TopoErr (List α) :=
  toposortFuel (nodes.length + 2) nodes edges

/-! ## The data reshaper `initData` -/

/-- `d3.format(".1%")`: the value as a percentage with one decimal place
(rounding modelled as ordinary rounding on `ℚ`). -/
def fmtPct1 (x : ℚ) : String :=
  let n : Int := round (x * 1000)
  let sgn := if n < 0 then "-" else ""
  let m := n.natAbs
  sgn ++ Nat.repr (m / 10) ++ "." ++ Nat.repr (m % 10) ++ "%"

/-- The color-attribute callback `cf`, which always returns `0` in the source. -/
def cf (_ : Row) : Nat := 0

/-- Display text of a row's first (primary-dimension) cell. -/
def dim1T (d : Row) : String := (d.getD 0 default).qText

/-- Display text of a row's second (secondary-dimension) cell. -/
def dim2T (d : Row) : String := (d.getD 1 default).qText

/-- The multi-measure reshaping at the top of `initData`: 0 dimensions become a
synthetic primary dimension (one row per measure), 1 dimension with several measures
becomes two dimensions with the measure as synthetic secondary dimension; otherwise
the raw data is processed as-is. -/
def inDataOf (g : G) : List Row :=
  if g.defDims = 0 then
    (g.rawData.map (fun row =>
      g.measures.enum.map (fun jm =>
        ([⟨-1, (jm.1 + 1 : ℚ), jm.2⟩, row.getD jm.1 default] : Row)))).flatten
  else if g.defDims = 1 ∧ g.defMeas > 1 then
    (g.rawData.map (fun row =>
      g.measures.enum.map (fun jm =>
        ([row.getD 0 default, ⟨-1, (jm.1 + 1 : ℚ), jm.2⟩, row.getD (jm.1 + 1) default] : Row)))).flatten
  else
    g.rawData

/-- State of the single pass over the rows that collects the first-seen primary order
`p`, first-seen secondary order `q` (with parallel colors `r`), and the adjacency
`edges` between consecutive secondary labels within one category.  `p1` is the
previous row's primary label (initially the empty string) and `p2` the previous
row's secondary label (initially JavaScript `undefined`, modelled as `none`; an edge
recorded before `p2` is first assigned keeps that `none`, exactly as the source
pushes `[undefined, c2]`). -/
structure Scan where
  p : List String := []
  q : List String := []
  r : List Nat := []
  p1 : String := ""
  p2 : Option String := none
  edges : List (Option String × Option String) := []
deriving DecidableEq, Inhabited

/-- One step of the collection pass (the body of the first `inData.forEach`). -/
def scanStep (st : Scan) (d : Row) : Scan :=
  let c2 := dim2T d
  let p' := if dim1T d ∈ st.p then st.p else st.p ++ [dim1T d]
  let q' := if dim2T d ∈ st.q then st.q else st.q ++ [dim2T d]
  let r' := if dim2T d ∈ st.q then st.r else st.r ++ [cf d]
  let p1' := if dim1T d ≠ st.p1 then dim1T d else st.p1
  let edges' :=
    if dim1T d ≠ st.p1 then st.edges
    else if (st.p2, some c2) ∈ st.edges then st.edges
    else st.edges ++ [(st.p2, some c2)]
  { p := p', q := q', r := r', p1 := p1', p2 := some c2, edges := edges' }

/-- The full collection pass. -/
def scanOf (rows : List Row) : Scan := rows.foldl scanStep {}

/-- The `try { toposort } catch` block: on success the secondary order is the
topological order (and `r` is permuted alongside via `ps.indexOf`); on a cyclic
error the first-seen order is kept.  Nodes are lifted to `Option String` because
the recorded edge sources may be the JavaScript `undefined`. -/
def orderOf (s : Scan) : List String × List Nat :=
  match toposort (s.q.map some) s.edges with
  | .ok qsOpt =>
    let qs := qsOpt.filterMap id
    (qs, (List.range s.q.length).map (fun i =>
      s.r.getD (jsIndexOf s.q (qs.getD i "")).toNat 0))
  | .error _ => (s.q, s.r)

/-- `d3.nest` on one key: entries in first-seen key order, each holding the rows
with that key in their original order. -/
def nestBy (key : Row → String) (rows : List Row) : List (String × List Row) :=
  (firstSeen (rows.map key)).map (fun k => (k, rows.filter (fun r => decide (key r = k))))

/-- `d3.nest().key(dim1).key(dim2).entries(inData)`. -/
def nest2 (rows : List Row) : List (String × List (String × List Row)) :=
  (nestBy dim1T rows).map (fun kv => (kv.1, nestBy dim2T kv.2))

/-- The two sorts applied after nesting: inner entries by position in `q`, outer
entries by position in `p`. -/
def sortCats (q p : List String) (n : List (String × List (String × List Row))) :
    List (String × List (String × List Row)) :=
  sortByIdx (fun kv => jsIndexOf p kv.1)
    (n.map (fun kv => (kv.1, sortByIdx (fun gr => jsIndexOf q gr.1) kv.2)))

/-- The `for (var i = 0; i < q.length; i++)` loop over the global secondary order,
walking index `j` through the category's (sorted) groups.  In the absent-label
branch the source computes `num = 0; txt = "-"; elm = []` but pushes nothing:
`v.push` sits inside the `else` branch, so only present labels yield segments. -/
def segLoop (defDims : Nat) : List String → List (String × List Row) → ℚ →
    List Segment → List Segment × ℚ
  | [], _, t, v => (v, t)
  | _ :: rest, [], t, v => segLoop defDims rest [] t v
  | qi :: rest, (k, rows) :: grest, t, v =>
    if k = qi then
      let row := rows.headI
      let num := (row.getD 2 default).qNum
      let txt := (row.getD 2 default).qText
      let elm : ElemKey :=
        if defDims = 2 then
          .pair (row.getD 0 default).qElemNumber (row.getD 1 default).qElemNumber
        else .scalar (row.getD 0 default).qElemNumber
      segLoop defDims rest grest (t + num)
        (v ++ [{ dim2 := qi, qNum := num, qText := txt, qElemNumber := elm, offset := t }])
    else segLoop defDims rest ((k, rows) :: grest) t v

/-- The per-segment pass `v.forEach`: attach the category label and, when
normalization is on, rescale `offset` and `qNum` by the category total and format
the percentage text from the rescaled value. -/
def normPass (normalized : Bool) (key : String) (t : ℚ) (e : Segment) : Segment :=
  if normalized then
    { e with
      dim1 := key
      offset := e.offset / t
      qNum := e.qNum / t
      qTextPct := fmtPct1 (e.qNum / t) }
  else
    { e with dim1 := key }

/-- Build one category's segment list (after the normalization pass) and its raw
running total `t`. -/
def buildCat (g : G) (q : List String) (kv : String × List (String × List Row)) :
    List Segment × ℚ :=
  let vt := segLoop g.defDims q kv.2 0 []
  ((vt.1).map (normPass g.normalized kv.1 vt.2), vt.2)

/-- The category records pushed onto `struc` (note `offset` is the raw total `t`
even in normalized mode). -/
def catsOf (g : G) (q : List String) (n : List (String × List (String × List Row))) :
    List Category :=
  n.map (fun kv => { dim1 := kv.1, offset := (buildCat g q kv).2,
                     values := some (buildCat g q kv).1 })

/-- `flatData.push.apply(flatData, v)` accumulated over the categories. -/
def flatOf (g : G) (q : List String) (n : List (String × List (String × List Row))) :
    List Segment :=
  (n.map (fun kv => (buildCat g q kv).1)).flatten

/-- The delta records for one adjacent category pair: segments paired by position,
skipping a position when either side is missing (`if (p[k] && c[k])`). -/
def deltaPair (p c : List Segment) : List Delta :=
  (List.range p.length).filterMap (fun k =>
    match p.get? k, c.get? k with
    | some pk, some ck =>
      some { dim1p := pk.dim1, dim1c := ck.dim1, dim2 := pk.dim2,
             delta := ck.qNum - pk.qNum, deltaPct := 0,
             points := [pk.offset, ck.offset, pk.qNum, ck.qNum] }
    | _, _ => none)

/-- All delta records (`idx > 0 && g.showDeltas`). -/
def deltasOf (g : G) (cats : List Category) : List Delta :=
  if g.showDeltas then
    ((cats.zip cats.tail).map (fun pc =>
      deltaPair (pc.1.values.getD []) (pc.2.values.getD []))).flatten
  else []

/-- The one-dimension branch of `initData` (`inData[0].length == 2`): one category
and one flat segment per row, segment `offset` 0, normalization forced off, and
`g.deltas` left untouched (the source returns before assigning it). -/
def initDataOne (g : G) (inData : List Row) : G :=
  let struc : List Category := inData.map (fun d =>
    { dim1 := dim1T d, offset := (d.getD 1 default).qNum, values := none })
  let flat : List Segment := inData.map (fun d =>
    { dim1 := dim1T d, dim2 := dim1T d, offset := 0,
      qNum := (d.getD 1 default).qNum, qText := (d.getD 1 default).qText,
      qTextPct := "", qElemNumber := .scalar (d.getD 0 default).qElemNumber })
  let q := firstSeen (inData.map dim1T)
  { g with
    nDims := 1
    normalized := false
    data := struc
    flatData := flat
    allDim2 := q
    allCol2 := q.map (fun _ => 0) }

/-- The two-dimension branch of `initData`. -/
def initDataTwo (g : G) (inData : List Row) : G :=
  let s := scanOf inData
  let qr := orderOf s
  let n := sortCats qr.1 s.p (nest2 inData)
  let cats := catsOf g qr.1 n
  { g with
    nDims := 2
    data := cats
    flatData := flatOf g qr.1 n
    allDim2 := qr.1
    allCol2 := qr.2
    deltas := deltasOf g cats }

/-- `initData`: the two defensive guards, the multi-measure reshape, then the
one- or two-dimension branch. -/
def initData (g : G) : G :=
  match g.rawData with
  | [] => g
  | row :: _ =>
    if g.defDims + g.defMeas ≠ row.length then g
    else
      let inData := inDataOf g
      if (inData.headD []).length = 2 then initDataOne g inData
      else initDataTwo g inData

/-! ## Layout planner: the margin and legend geometry of `initChart` -/

/-- Configuration read by the margin/legend part of `initChart`. -/
structure ChartConfig where
  orientation : String := "V"
  labelTitleD : String := "N"
  labelTitleM : String := "N"
  axisMarginD : String := "M"
  axisMarginM : String := "M"
  width : ℚ := 0
  height : ℚ := 0
  showLegend : Bool := false
  legendPosition : String := "R"
  legendSize : String := "M"
  legendSpacing : String := "M"
deriving DecidableEq, Inhabited

/-- `"WMN".indexOf(s)` (−1 when `s` is none of the three sizes). -/
def wmnIdx (s : String) : Int :=
  if s = "W" then 0 else if s = "M" then 1 else if s = "N" then 2 else -1

/-- `[a,b,c]["WMN".indexOf(s)]`: a three-entry lookup table indexed by size code.
An out-of-range code yields `undefined` (`NaN` in arithmetic) in JavaScript;
it is modelled by `0` here, and theorems assume a valid code. -/
def pick3 (s : String) (a b c : ℚ) : ℚ :=
  if s = "W" then a else if s = "M" then b else if s = "N" then c else 0

/-- The margin object. -/
structure Margin where
  top : ℚ
  right : ℚ
  bottom : ℚ
  left : ℚ
deriving DecidableEq, Inhabited

/-- The legend geometry block `g.lgn`.  Fields that the source leaves `undefined`
when unused (`width`, `height`, `x`, `y`, `txtWidth`) default to 0. -/
structure Lgn where
  minDim : List ℚ := [200, 100]
  use : String := ""
  pad : ℚ := 0
  sep : ℚ := 5
  box : List ℚ := [12, 12]
  itmHeight : ℚ := 20
  txtOff : ℚ := 0
  width : ℚ := 0
  height : ℚ := 0
  x : ℚ := 0
  y : ℚ := 0
  txtWidth : ℚ := 0
deriving DecidableEq, Inhabited

/-- The geometry produced by the start of `initChart`. -/
structure Layout where
  xAxisHeight : ℚ
  yAxisWidth : ℚ
  margin : Margin
  innerWidth : ℚ
  innerHeight : ℚ
  lgn : Lgn
deriving DecidableEq, Inhabited

/-- `xLabelTitle` of `initChart`. -/
def xLabelTitle (c : ChartConfig) : String :=
  if c.orientation = "V" then c.labelTitleD else c.labelTitleM

/-- `g.xAxisHeight`. -/
def xAxisHeightOf (c : ChartConfig) : ℚ :=
  if xLabelTitle c = "B" ∨ xLabelTitle c = "L" then
    pick3 (if c.orientation = "V" then c.axisMarginD else c.axisMarginM) 70 40 25
  else 0

/-- `xTitleHeight`. -/
def xTitleHeightOf (c : ChartConfig) : ℚ :=
  if xLabelTitle c = "B" ∨ xLabelTitle c = "T" then 20 else 0

/-- `yLabelTitle`. -/
def yLabelTitle (c : ChartConfig) : String :=
  if c.orientation = "V" then c.labelTitleM else c.labelTitleD

/-- `g.yAxisWidth`. -/
def yAxisWidthOf (c : ChartConfig) : ℚ :=
  if yLabelTitle c = "B" ∨ yLabelTitle c = "L" then
    pick3 (if c.orientation = "V" then c.axisMarginM else c.axisMarginD) 90 50 30
  else 0

/-- `yTitleWidth`. -/
def yTitleWidthOf (c : ChartConfig) : ℚ :=
  if yLabelTitle c = "B" ∨ yLabelTitle c = "T" then 20 else 0

/-- The margin object (`xAxisPad` and `yAxisPad` are both 20). -/
def marginOf (c : ChartConfig) : Margin :=
  { top := 10, right := 20,
    bottom := xAxisHeightOf c + xTitleHeightOf c + 20,
    left := yAxisWidthOf c + yTitleWidthOf c + 20 }

/-- `innerWidth = g.width - margin.left - margin.right` before legend
adjustment. -/
def innerWidth0 (c : ChartConfig) : ℚ :=
  c.width - (marginOf c).left - (marginOf c).right

/-- `innerHeight = g.height - margin.top - margin.bottom` before legend
adjustment. -/
def innerHeight0 (c : ChartConfig) : ℚ :=
  c.height - (marginOf c).top - (marginOf c).bottom

/-- The initial legend record (`minDim`, paddings, `txtOff = box[0]+pad+sep`). -/
def lgnInit : Lgn := { txtOff := 12 + 0 + 5 }

/-- The margin/legend computation at the start of `initChart` (lines 337–415 of the
source, identical in both shipped versions of the file). -/
def initChartLayout (c : ChartConfig) : Layout :=
  let margin := marginOf c
  let use0 := if c.showLegend then c.legendPosition else ""
  if use0 = "" then
    { xAxisHeight := xAxisHeightOf c, yAxisWidth := yAxisWidthOf c, margin := margin,
      innerWidth := innerWidth0 c, innerHeight := innerHeight0 c,
      lgn := { lgnInit with use := use0 } }
  else if use0 = "L" ∨ use0 = "R" then
    if innerWidth0 c ≤ lgnInit.minDim.getD 0 0 then
      { xAxisHeight := xAxisHeightOf c, yAxisWidth := yAxisWidthOf c, margin := margin,
        innerWidth := innerWidth0 c, innerHeight := innerHeight0 c,
        lgn := { lgnInit with use := "" } }
    else
      let w := innerWidth0 c / pick3 c.legendSize 4 6 10
      let innerWidth1 := innerWidth0 c - (w + 20)
      let lgn1 : Lgn :=
        { lgnInit with
          use := use0
          width := w
          height := innerHeight0 c + xAxisHeightOf c + xTitleHeightOf c
          y := margin.top
          txtWidth := w - lgnInit.pad - lgnInit.sep - lgnInit.box.getD 0 0
          x := if use0 = "L" then 20 else margin.left + innerWidth1 + 20 }
      let margin1 :=
        if use0 = "L" then { margin with left := margin.left + (w + 20) } else margin
      { xAxisHeight := xAxisHeightOf c, yAxisWidth := yAxisWidthOf c, margin := margin1,
        innerWidth := innerWidth1, innerHeight := innerHeight0 c, lgn := lgn1 }
  else if use0 = "T" ∨ use0 = "B" then
    if innerHeight0 c ≤ lgnInit.minDim.getD 1 0 then
      { xAxisHeight := xAxisHeightOf c, yAxisWidth := yAxisWidthOf c, margin := margin,
        innerWidth := innerWidth0 c, innerHeight := innerHeight0 c,
        lgn := { lgnInit with use := "" } }
    else
      let h := lgnInit.itmHeight * ((3 : ℚ) - (wmnIdx c.legendSize : ℚ))
      let innerHeight1 := innerHeight0 c - h
      let lgn1 : Lgn :=
        { lgnInit with
          use := use0
          width := innerWidth0 c + yAxisWidthOf c + yTitleWidthOf c
          height := h
          x := 20
          txtWidth := pick3 c.legendSpacing 100 75 50
          y := if use0 = "T" then margin.top else margin.bottom + innerHeight1 }
      let margin1 :=
        if use0 = "T" then { margin with top := margin.top + h } else margin
      let innerHeight2 := if use0 = "T" then innerHeight1 else innerHeight1 - 10
      { xAxisHeight := xAxisHeightOf c, yAxisWidth := yAxisWidthOf c, margin := margin1,
        innerWidth := innerWidth0 c, innerHeight := innerHeight2, lgn := lgn1 }
  else
    { xAxisHeight := xAxisHeightOf c, yAxisWidth := yAxisWidthOf c, margin := margin,
      innerWidth := innerWidth0 c, innerHeight := innerHeight0 c,
      lgn := { lgnInit with use := use0 } }

/-! ## Label text engine `barText`

The embedding follows the newer shipped version of the file (the one importing
`barLabelText` and carrying the bar-gap suppression rule).  DOM text measurement
(`getBBox`, `getComputedTextLength` on the scratch element `g.tref`) is modelled by
oracle functions from the currently set text to a rational. -/

/-- Configuration and oracles read by `barText`. -/
structure BarTextConfig where
  orientation : String := "V"
  hAlign : String := "C"
  vAlign : String := "C"
  innerBarPadV : ℚ := 2
  innerBarPadH : ℚ := 2
  textSize : ℚ := 10
  showTot : String := "M"
  showDim : String := "M"
  normalized : Bool := false
  rotateLabel : Bool := false
  textDots : Bool := false
  showTexts : String := "B"
  barGap : ℚ := 0
  barWidth : ℚ := 0
  dScaleBand : ℚ := 0
  dScale : String → ℚ := fun _ => 0
  mScale : ℚ → ℚ := fun x => x
  bboxW : String → ℚ := fun _ => 0
  bboxH : String → ℚ := fun _ => 0
  textLen : String → ℚ := fun _ => 0
deriving Inhabited

/-- Modelled from the spec: the label-selection helper `getBarLabelText` is imported
from `barLabelText.js`, which is not among the provided sources.  Per the spec (and
the older shipped version, where the same choice is inlined): an empty label for
zero values; for totals the category label or total text per `showTot`; otherwise
the category label, the percentage text (when `showDim` is `"P"` and normalized), or
the value text per `showDim`. -/
def getBarLabelText (d : Segment) (g : BarTextConfig) (total : Bool) : String :=
  if d.qNum = 0 then ""
  else if total then (if g.showTot = "D" then d.dim1 else d.qText)
  else if g.showDim = "D" then d.dim1
  else if g.showDim = "P" ∧ g.normalized then d.qTextPct
  else d.qText

/-- The ellipsis character `…`. -/
def ellipsisStr : String := "…"

/-- The `while (textLength > limit && txt.length > 0)` truncation loop of the
non-rotated dotted branch.  State: `(txt, tref text, textLength)`; each pass drops
the last character and re-measures `txt + ellipsis`.  The loop runs at most
`txt.length` times, given here as fuel. -/
def truncLoop (tl : String → ℚ) (limit : ℚ) :
    Nat → String → String → ℚ → String × String × ℚ
  | 0, txt, cur, len => (txt, cur, len)
  | fuel + 1, txt, cur, len =>
    if len > limit ∧ txt.length > 0 then
      let txt1 := txt.dropRight 1
      let cur1 := txt1 ++ ellipsisStr
      truncLoop tl limit fuel txt1 cur1 (tl cur1)
    else (txt, cur, len)

/-- The total-label truncation loop
`while (textLength > barWidth && textLength > 0 && g.orientation !== 'H')`.
Its guard tests `textLength`, not `txt.length`, so with an adversarial measurement
oracle the JavaScript loop need not terminate; the model exits after `fuel` passes
(callers pass `txt.length + 1`, enough for every terminating run). -/
def totLoop (tl : String → ℚ) (barWidth : ℚ) (orientation : String) (textDots : Bool) :
    Nat → String → String → ℚ → String × String × ℚ
  | 0, txt, cur, len => (txt, cur, len)
  | fuel + 1, txt, cur, len =>
    if len > barWidth ∧ len > 0 ∧ orientation ≠ "H" then
      let txt1 := txt.dropRight 1
      let cur1 := txt1 ++ ellipsisStr
      let len1 := tl cur1
      let txt2 := if ¬ textDots then "" else txt1
      totLoop tl barWidth orientation textDots fuel txt2 cur1 len1
    else (txt, cur, len)

/-- The rotated dotted branch (`g.rotateLabel && barWidth > 25 && g.textDots`):
estimate how many characters exceed the bar height and slice them off, appending an
ellipsis.  Returns `(txt, isEllip)`. -/
def rotDotsText (g : BarTextConfig) (bHeight : ℚ) (cur : String) : String × Bool :=
  let textLength := g.textLen cur
  let txt := cur
  let ellipsisLength : ℚ := 25
  let extraPadding : ℚ := 15
  let remainingSpaceForText0 := bHeight - ellipsisLength - extraPadding
  let numberOfTextCharacters := txt.length
  let textOnCharacterPixelRatio := textLength / (numberOfTextCharacters : ℚ)
  let remainingSpaceForText := if remainingSpaceForText0 < 0 then 0 else remainingSpaceForText0
  if bHeight - extraPadding > textLength then (cur, false)
  else
    let textThatShouldbeEllip := textLength - remainingSpaceForText
    let numberOfChartoBeEllip :=
      Int.toNat (⌈textThatShouldbeEllip / textOnCharacterPixelRatio⌉ + 20)
    if g.showTexts ≠ "A" then
      let txt1 := txt.dropRight numberOfChartoBeEllip ++ ellipsisStr
      let txt2 := if txt1 = ellipsisStr then "" else txt1
      (txt2, true)
    else (txt, false)

/-- The result of `barText`: position, text, rotation flag and ellipsis flag
(`Number.isFinite` fallbacks to 0 are identities on `ℚ`, which has no `NaN`). -/
structure BarTextOut where
  x : ℚ
  y : ℚ
  text : String
  rotation : Bool
  isEllip : Bool
deriving DecidableEq, Inhabited

/-- `barText(d, total)`: label string (with truncation/ellipsis decisions), position
and rotation for one segment or total record. -/
def barText (g : BarTextConfig) (d : Segment) (total : Bool) : BarTextOut :=
  let hAlign := if total ∧ ¬ (g.orientation = "V") then "L" else g.hAlign
  let vAlign := if total ∧ g.orientation = "V" then "B" else g.vAlign
  let innerBarPadV := g.innerBarPadV
  let innerBarPadH := g.innerBarPadH
  let origX := if g.orientation = "V" then g.dScale d.dim1 else g.mScale d.offset
  let bHeight := if g.orientation = "V" then g.mScale 0 - g.mScale d.qNum else g.dScaleBand
  let textX := if g.orientation = "V" then g.dScaleBand else g.mScale d.qNum
  let cur0 := getBarLabelText d g total
  let bbH := g.bboxH cur0
  let bbW := g.bboxW cur0
  let tx0 := origX + innerBarPadH
  let textY :=
    if vAlign = "C" then
      if g.orientation = "V" then
        g.mScale d.offset - (g.mScale 0 - g.mScale d.qNum)
          + (g.mScale 0 - g.mScale d.qNum + bbH) / 2
      else g.dScale d.dim1 + (g.dScaleBand + bbH) / 2
    else if vAlign = "T" then
      if g.orientation = "V" then
        g.mScale d.offset - (g.mScale 0 - g.mScale d.qNum) + bbH + innerBarPadV
      else g.dScale d.dim1 + innerBarPadV + bbH
    else
      if g.orientation = "V" then g.mScale d.offset - innerBarPadV
      else g.dScale d.dim1 + g.dScaleBand - innerBarPadV
  let barWidth := g.barWidth
  -- the main fitting block; state is (tx, txt, tref text, isEllip)
  let s1 : ℚ × String × String × Bool :=
    if bbH + 2 * innerBarPadV ≤ bHeight ∨ g.orientation ≠ "V" then
      let tx1 :=
        if bbW + 2 * innerBarPadH ≤ textX then
          if hAlign = "C" then origX + (textX - bbW) / 2
          else if hAlign = "R" then origX + textX - bbW - innerBarPadH
          else tx0
        else tx0
      let txt1 := if bbW + 2 * innerBarPadH ≤ textX then cur0 else ""
      -- the three truncation blocks are sequential `if`s in the source, but their
      -- guards are pairwise exclusive, so at most one has an effect
      if g.rotateLabel ∧ barWidth > 25 ∧ g.textDots then
        let te := rotDotsText g bHeight cur0
        (tx1, te.1, cur0, te.2)
      else if ¬ g.rotateLabel ∧ g.textDots then
        let r := truncLoop g.textLen (textX - 2 * innerBarPadH)
          cur0.length cur0 cur0 (g.textLen cur0)
        let txt2 := if r.1.length ≠ 0 then r.2.1 else r.1
        (tx1, txt2, r.2.1, false)
      else if ¬ g.textDots ∧ g.rotateLabel then
        let txt2 := if g.textLen cur0 > bHeight then "" else cur0
        (tx1, txt2, cur0, false)
      else (tx1, txt1, cur0, false)
    else (tx0, "", cur0, false)
  let rotation :=
    if g.rotateLabel ∧ g.orientation = "V" then true
    else if g.orientation ≠ "V" then false
    else false
  let s2 : ℚ × String × String × Bool :=
    if total then
      let cur := s1.2.2.1
      let r := totLoop g.textLen barWidth g.orientation g.textDots
        (cur.length + 1) cur cur (g.textLen cur)
      let txt3 := if r.1.length ≠ 0 then r.2.1 else r.1
      (s1.1, txt3, r.2.1, s1.2.2.2)
    else s1
  let txtFinal := if g.barGap = 1 then "" else s2.2.1
  { x := s2.1, y := textY, text := txtFinal, rotation := rotation, isEllip := s2.2.2.2 }

/-! ## Specification predicates -/

/-- The edge relation of an edge list. -/
def edgeRel {α : Type _} (edges : List (α × α)) (a b : α) : Prop := (a, b) ∈ edges

/-- An edge list has a (genuine) cycle: some node reaches itself through one or
more edges. -/
def HasCycle {α : Type _} (edges : List (α × α)) : Prop :=
  ∃ x, Relation.TransGen (edgeRel edges) x x

/-- Segment offsets are running prefix sums starting at `base`: the head's offset is
`base` and the tail continues from `base + head.qNum`. -/
inductive OffsetsFrom : ℚ → List Segment → Prop where
  | nil : ∀ base, OffsetsFrom base []
  | cons : ∀ base s l, s.offset = base → OffsetsFrom (base + s.qNum) l →
      OffsetsFrom base (s :: l)

/-- The per-segment numeric value before normalization of one group entry of the
category loop: the measure cell of the group's first row. -/
def groupBase (gr : String × List Row) : ℚ := ((gr.2.headI).getD 2 default).qNum

/-! ### Invariants for the topological-sort proof -/

/-- Basic well-formedness of the DFS state: visited indices are distinct and are
real node indices. -/
def LiteInv {α : Type _} (nodes : List α) (st : TopoState α) : Prop :=
  st.visited.Nodup ∧ ∀ j ∈ st.visited, 0 ≤ j ∧ j < (nodes.length : Int)

/-- Full DFS invariant, relative to the current predecessor path `preds`:
well-formedness; the visited indices name exactly the completed nodes plus the
nodes on the current path (as a multiset); completed nodes are closed under
out-edges; every out-edge of a completed node points further right in the output;
and no completed node has a self-loop. -/
def Inv {α : Type _} [Inhabited α] (edges : List (α × α)) (nodes : List α)
    (preds : List α) (st : TopoState α) : Prop :=
  LiteInv nodes st ∧
  (st.visited.map (fun j => nodes.getD j.toNat default)).Perm (st.acc ++ preds) ∧
  (∀ x ∈ st.acc, ∀ e ∈ edges, e.1 = x → e.2 ∈ st.acc) ∧
  (∀ e ∈ edges, ∀ l₁ l₂, st.acc = l₁ ++ e.1 :: l₂ → e.1 = e.2 ∨ e.2 ∈ l₂) ∧
  (∀ x ∈ st.acc, (x, x) ∉ edges)

/-! ## Concrete inputs used by witnesses and counterexamples -/

/-- Two-dimension input in which category `A` has secondary labels `P`, `Q` but
category `B` only has `P`. -/
def c1G : G :=
  { rawData := [
      [⟨0, 0, "A"⟩, ⟨0, 0, "P"⟩, ⟨0, 1, "1"⟩],
      [⟨0, 0, "A"⟩, ⟨1, 0, "Q"⟩, ⟨0, 2, "2"⟩],
      [⟨1, 0, "B"⟩, ⟨0, 0, "P"⟩, ⟨0, 3, "3"⟩]]
    defDims := 2
    defMeas := 1
    measures := ["m"] }

/-- Normalized two-dimension input with positive values `1` and `3` in one
category. -/
def c3G : G :=
  { rawData := [
      [⟨0, 0, "A"⟩, ⟨0, 0, "P"⟩, ⟨0, 1, "1"⟩],
      [⟨0, 0, "A"⟩, ⟨1, 0, "Q"⟩, ⟨0, 3, "3"⟩]]
    defDims := 2
    defMeas := 1
    measures := ["m"]
    normalized := true }

/-- Normalized two-dimension input with a negative value: the category total is
`-1 + 2 = 1`, so the first segment normalizes to `-1 ∉ [0,1]`. -/
def c3Neg : G :=
  { rawData := [
      [⟨0, 0, "A"⟩, ⟨0, 0, "P"⟩, ⟨0, -1, "-1"⟩],
      [⟨0, 0, "A"⟩, ⟨1, 0, "Q"⟩, ⟨0, 2, "2"⟩]]
    defDims := 2
    defMeas := 1
    measures := ["m"]
    normalized := true }

/-- Two-dimension input whose observed adjacency edges are the cycle
`[["A","B"],["B","A"]]` (category `X` orders its labels `A,B`; category `Y` orders
them `B,A`). -/
def c4G : G :=
  { rawData := [
      [⟨0, 0, "X"⟩, ⟨0, 0, "A"⟩, ⟨0, 1, "1"⟩],
      [⟨0, 0, "X"⟩, ⟨1, 0, "B"⟩, ⟨0, 1, "1"⟩],
      [⟨1, 0, "Y"⟩, ⟨1, 0, "B"⟩, ⟨0, 1, "1"⟩],
      [⟨1, 0, "Y"⟩, ⟨0, 0, "A"⟩, ⟨0, 1, "1"⟩]]
    defDims := 2
    defMeas := 1
    measures := ["m"] }

/-- An input whose declared dimension/measure counts (2+1) do not match the row
width (1), with stale previous output to show it is untouched. -/
def c5G : G :=
  { rawData := [[⟨0, 1, "x"⟩]]
    defDims := 2
    defMeas := 1
    data := [{ dim1 := "stale", offset := 7 }]
    flatData := [{ dim1 := "stale", dim2 := "s", offset := 1, qNum := 2, qText := "2",
                   qElemNumber := .scalar 4 }]
    allDim2 := ["s"]
    deltas := [{ dim1p := "a", dim1c := "b", dim2 := "s", delta := 1, deltaPct := 0,
                 points := [0, 0, 1, 2] }] }

/-- One dimension, one measure: `["X","Y"]` with values `[10,20]` (normalization
requested, to show it is forced off). -/
def c7G : G :=
  { rawData := [
      [⟨0, 0, "X"⟩, ⟨0, 10, "10"⟩],
      [⟨1, 0, "Y"⟩, ⟨0, 20, "20"⟩]]
    defDims := 1
    defMeas := 1
    measures := ["m"]
    normalized := true }

/-- A segment fed to `barText` in the bar-gap witness. -/
def c8Seg : Segment :=
  { dim1 := "X", dim2 := "X", offset := 0, qNum := 5, qText := "5",
    qElemNumber := .scalar 0 }

/-- Side-legend configuration whose inner width is exactly 200 (width 240, no axis
labels: margins 20 left, 20 right). -/
def c9Lo : ChartConfig :=
  { width := 240, height := 300, showLegend := true, legendPosition := "R",
    legendSize := "M" }

/-- Side-legend configuration whose inner width is exactly 201. -/
def c9Hi : ChartConfig :=
  { width := 241, height := 300, showLegend := true, legendPosition := "R",
    legendSize := "M" }

/-! ### Helper lemmas about `jsIndexOf` -/

section IndexLemmas

variable {α : Type _} [DecidableEq α] [Inhabited α]

/-- `jsIndexOf` of a present element is non-negative. -/
theorem jsIndexOf_nonneg {a : α} :
    ∀ {l : List α}, a ∈ l → 0 ≤ jsIndexOf l a := by
  intro l
  induction l with
  | nil => simp
  | cons x xs ih =>
    intro ha
    by_cases hx : x = a
    · simp [jsIndexOf, hx]
    · have ha' : a ∈ xs := by
        rcases List.mem_cons.mp ha with h | h
        · exact absurd h.symm hx
        · exact h
      have h0 := ih ha'
      have hne : ¬ jsIndexOf xs a = -1 := by omega
      simp only [jsIndexOf, if_neg hx, if_neg hne]
      omega

/-- Stepping `jsIndexOf` over a non-matching head of a list containing the
element. -/
theorem jsIndexOf_cons_of_ne {x a : α} (hx : ¬ x = a) {xs : List α} (ha : a ∈ xs) :
    jsIndexOf (x :: xs) a = jsIndexOf xs a + 1 := by
  have h0 := jsIndexOf_nonneg ha
  have hne : ¬ jsIndexOf xs a = -1 := by omega
  simp only [jsIndexOf, if_neg hx, if_neg hne]

/-- `jsIndexOf` of a present element: non-negative, below the length, and reading
the list back at that index recovers the element. -/
theorem jsIndexOf_spec {a : α} :
    ∀ {l : List α}, a ∈ l →
      0 ≤ jsIndexOf l a ∧ jsIndexOf l a < (l.length : Int) ∧
        l.getD (jsIndexOf l a).toNat default = a := by
  intro l
  induction l with
  | nil => simp
  | cons x xs ih =>
    intro ha
    by_cases hx : x = a
    · subst hx
      have h1 : jsIndexOf (x :: xs) x = 0 := by simp [jsIndexOf]
      rw [h1]
      refine ⟨le_refl _, by simp only [List.length_cons]; push_cast; omega, by simp⟩
    · have ha' : a ∈ xs := by
        rcases List.mem_cons.mp ha with h | h
        · exact absurd h.symm hx
        · exact h
      obtain ⟨h0, h1, h2⟩ := ih ha'
      rw [jsIndexOf_cons_of_ne hx ha']
      refine ⟨by omega, by simp only [List.length_cons]; push_cast; push_cast at h1; omega, ?_⟩
      have ht : (jsIndexOf xs a + 1).toNat = (jsIndexOf xs a).toNat + 1 := by omega
      rw [ht, List.getD_cons_succ]
      exact h2

/-- On a duplicate-free list, the index determined by `getD` is `jsIndexOf`. -/
theorem jsIndexOf_of_getD {l : List α} (hnd : l.Nodup) :
    ∀ (i : Nat), i < l.length → ∀ {x : α}, l.getD i default = x →
      jsIndexOf l x = (i : Int) := by
  induction l with
  | nil => simp
  | cons y ys ih =>
    intro i hi x hx
    cases i with
    | zero =>
      simp only [List.getD_cons_zero] at hx
      subst hx
      simp [jsIndexOf]
    | succ j =>
      rw [List.getD_cons_succ] at hx
      have hj : j < ys.length := by simpa using hi
      have hx' : x ∈ ys := by
        rw [← hx, List.getD_eq_getElem ys default hj]
        exact List.getElem_mem hj
      have hyx : ¬ y = x := fun hEq => (List.nodup_cons.mp hnd).1 (hEq ▸ hx')
      rw [jsIndexOf_cons_of_ne hyx hx', ih (List.nodup_cons.mp hnd).2 j hj hx]
      push_cast
      ring

/-- In a duplicate-free list decomposed around `a`, any element of the tail part
has a strictly larger `jsIndexOf` than `a`. -/
theorem jsIndexOf_lt_of_decomp {a b : α} :
    ∀ (l₁ : List α) {l₂ : List α}, (l₁ ++ a :: l₂).Nodup → b ∈ l₂ →
      jsIndexOf (l₁ ++ a :: l₂) a < jsIndexOf (l₁ ++ a :: l₂) b := by
  intro l₁
  induction l₁ with
  | nil =>
    intro l₂ hnd hb
    have hba : ¬ a = b := by
      intro hEq
      exact (List.nodup_cons.mp (by simpa using hnd)).1 (hEq ▸ hb)
    have h1 : jsIndexOf ([] ++ a :: l₂) a = 0 := by simp [jsIndexOf]
    have h2 : jsIndexOf ([] ++ a :: l₂) b = jsIndexOf l₂ b + 1 := by
      simpa using jsIndexOf_cons_of_ne hba hb
    rw [h1, h2]
    have := jsIndexOf_nonneg hb
    omega
  | cons x xs ih =>
    intro l₂ hnd hb
    have hnd' : (xs ++ a :: l₂).Nodup := (List.nodup_cons.mp hnd).2
    have hamem : a ∈ xs ++ a :: l₂ := by simp
    have hbmem : b ∈ xs ++ a :: l₂ := by
      simp only [List.mem_append, List.mem_cons]
      exact Or.inr (Or.inr hb)
    have hxa : ¬ x = a := fun hEq => (List.nodup_cons.mp hnd).1 (hEq ▸ hamem)
    have hxb : ¬ x = b := fun hEq => (List.nodup_cons.mp hnd).1 (hEq ▸ hbmem)
    have e1 : jsIndexOf (x :: (xs ++ a :: l₂)) a = jsIndexOf (xs ++ a :: l₂) a + 1 :=
      jsIndexOf_cons_of_ne hxa hamem
    have e2 : jsIndexOf (x :: (xs ++ a :: l₂)) b = jsIndexOf (xs ++ a :: l₂) b + 1 :=
      jsIndexOf_cons_of_ne hxb hbmem
    have hlt := ih hnd' hb
    simp only [List.cons_append]
    rw [e1, e2]
    omega

/-- Every valid index appears in `enum` paired with the list entry there. -/
theorem mem_enum_of_lt {l : List α} {i : Nat} (hi : i < l.length) :
    (i, l.getD i default) ∈ l.enum := by
  have hlt : i < l.enum.length := by simpa [List.enum_length] using hi
  have he : l.enum.get ⟨i, hlt⟩ = (i, l[i]) := List.getElem_enum l i hlt
  rw [List.getD_eq_getElem l default hi]
  rw [← he]
  exact List.get_mem _ _ _

/-- An `enum` entry's index is valid and reads back its element. -/
theorem enum_entry_spec {l : List α} {pr : Nat × α} (h : pr ∈ l.enum) :
    pr.1 < l.length ∧ l.getD pr.1 default = pr.2 ∧ pr.2 ∈ l := by
  obtain ⟨i, hi, he⟩ := List.mem_iff_getElem.mp h
  have hi' : i < l.length := by simpa [List.enum_length] using hi
  have := List.getElem_enum l i hi
  rw [this] at he
  obtain ⟨h1, h2⟩ := Prod.mk.injEq .. ▸ he
  have hidx : pr.1 = i := h1.symm
  subst hidx
  refine ⟨hi', ?_, ?_⟩
  · rw [List.getD_eq_getElem l default hi', h2]
  · rw [← h2]
    exact List.getElem_mem hi'

end IndexLemmas

/-! ### The topological-sort invariant proof -/

section ToposortProof

variable {α : Type _} [DecidableEq α] [Inhabited α]

/-- A well-formed visited set has at most one entry per node index. -/
theorem LiteInv.length_le {nodes : List α} {st : TopoState α}
    (h : LiteInv nodes st) : st.visited.length ≤ nodes.length := by
  have hmapnd : (st.visited.map Int.toNat).Nodup := by
    refine List.Nodup.map_on ?_ h.1
    intro x hx y hy hxy
    have hx' := h.2 x hx
    have hy' := h.2 y hy
    omega
  have hsub : st.visited.map Int.toNat ⊆ List.range nodes.length := by
    intro m hm
    obtain ⟨j, hj, rfl⟩ := List.mem_map.mp hm
    have := h.2 j hj
    simp only [List.mem_range]
    omega
  have hle := (hmapnd.subperm hsub).length_le
  simpa using hle

/-- A member of the traversed children list is the target of an out-edge of
`node`. -/
theorem children_mem {node c : α} {edges : List (α × α)}
    (h : c ∈ ((edges.filter (fun e => decide (e.1 = node))).reverse).map (fun e => e.2)) :
    (node, c) ∈ edges := by
  obtain ⟨e, he, rfl⟩ := List.mem_map.mp h
  rw [List.mem_reverse] at he
  have h2 := List.mem_filter.mp he
  have h3 : e.1 = node := by simpa using h2.2
  have h4 : (node, e.2) = e := by rw [← h3]
  rw [h4]
  exact h2.1

/-- Every out-edge target of `node` is in the traversed children list. -/
theorem mem_children {node : α} {edges : List (α × α)} {e : α × α}
    (he : e ∈ edges) (h1 : e.1 = node) :
    e.2 ∈ ((edges.filter (fun e => decide (e.1 = node))).reverse).map (fun e => e.2) := by
  refine List.mem_map_of_mem _ ?_
  rw [List.mem_reverse]
  exact List.mem_filter.mpr ⟨he, by simp [h1]⟩

/-- Master invariant lemma: a successful `visit` preserves the DFS invariant,
grows `visited` and the output by prefixing only, completes its node, and marks
its index. -/
theorem visitF_ok_inv (edges : List (α × α)) (nodes : List α)
    (hin : ∀ e ∈ edges, e.1 ∈ nodes ∧ e.2 ∈ nodes) (hnd : nodes.Nodup) :
    ∀ (fuel : Nat) (node : α) (i : Int) (preds : List α) (st st' : TopoState α),
      visitF edges nodes fuel node i preds st = .ok st' →
      node ∈ nodes → i = jsIndexOf nodes node →
      Inv edges nodes preds st →
      Inv edges nodes preds st' ∧ st.visited.IsSuffix st'.visited ∧
        st.acc.IsSuffix st'.acc ∧ node ∈ st'.acc ∧ i ∈ st'.visited := by
  intro fuel
  induction fuel with
  | zero =>
    intro node i preds st st' h
    simp [visitF] at h
  | succ fuel ih =>
    intro node i preds st st' h hnode hi hinv
    rw [visitF] at h
    by_cases hpred : node ∈ preds
    · rw [if_pos hpred] at h
      cases h
    · rw [if_neg hpred] at h
      by_cases hvis : i ∈ st.visited
      · rw [if_pos hvis] at h
        have hst : st = st' := by injection h
        subst hst
        have hmem : node ∈ st.acc ++ preds := by
          have hmap : nodes.getD i.toNat default
              ∈ st.visited.map (fun j => nodes.getD j.toNat default) :=
            List.mem_map_of_mem _ hvis
          have hn : nodes.getD i.toNat default = node := by
            rw [hi]
            exact (jsIndexOf_spec hnode).2.2
          rw [hn] at hmap
          exact hinv.2.1.mem_iff.mp hmap
        have hacc : node ∈ st.acc := by
          rcases List.mem_append.mp hmem with hmm | hmm
          · exact hmm
          · exact absurd hmm hpred
        exact ⟨hinv, List.suffix_rfl, List.suffix_rfl, hacc, hvis⟩
      · rw [if_neg hvis] at h
        have hibounds := jsIndexOf_spec hnode
        have hn : nodes.getD i.toNat default = node := by
          rw [hi]
          exact hibounds.2.2
        have hswap : ∀ (X : List α),
            (X ++ (preds ++ [node])).Perm (node :: (X ++ preds)) := by
          intro X
          have := @List.perm_middle α node (X ++ preds) ([] : List α)
          simpa using this
        have hinv1 : Inv edges nodes (preds ++ [node]) ⟨i :: st.visited, st.acc⟩ := by
          obtain ⟨⟨hndv, hbv⟩, hperm, hclo, hord, hself⟩ := hinv
          refine ⟨⟨List.nodup_cons.mpr ⟨hvis, hndv⟩, ?_⟩, ?_, hclo, hord, hself⟩
          · intro j hj
            rcases List.mem_cons.mp hj with rfl | hj'
            · rw [hi]
              exact ⟨hibounds.1, hibounds.2.1⟩
            · exact hbv j hj'
          · simp only [List.map_cons, hn]
            exact (hperm.cons node).trans (hswap st.acc).symm
        have hfold : ∀ (cs : List α), (∀ c ∈ cs, c ∈ nodes) →
            ∀ (s s' : TopoState α), Inv edges nodes (preds ++ [node]) s →
            List.foldlM (fun s c => visitF edges nodes fuel c (jsIndexOf nodes c)
              (preds ++ [node]) s) s cs = .ok s' →
            Inv edges nodes (preds ++ [node]) s' ∧ s.visited.IsSuffix s'.visited ∧
              s.acc.IsSuffix s'.acc ∧ ∀ c ∈ cs, c ∈ s'.acc := by
          intro cs
          induction cs with
          | nil =>
            intro _ s s' hs hf
            rw [List.foldlM_nil] at hf
            have hss : s = s' := by injection hf
            subst hss
            exact ⟨hs, List.suffix_rfl, List.suffix_rfl, by simp⟩
          | cons c cs ihc =>
            intro hcs s s' hs hf
            rw [List.foldlM_cons] at hf
            cases hcall : visitF edges nodes fuel c (jsIndexOf nodes c) (preds ++ [node]) s with
            | error e =>
              rw [hcall] at hf
              have hf' : (Except.error e : Except TopoErr (TopoState α)) = Except.ok s' := hf
              cases hf'
            | ok s1 =>
              rw [hcall] at hf
              replace hf : List.foldlM (fun s c => visitF edges nodes fuel c
                  (jsIndexOf nodes c) (preds ++ [node]) s) s1 cs = Except.ok s' := hf
              obtain ⟨hinv1', hsv1, hsa1, hmemc, _⟩ :=
                ih c (jsIndexOf nodes c) (preds ++ [node]) s s1 hcall
                  (hcs c (List.mem_cons_self _ _)) rfl hs
              obtain ⟨hinv2', hsv2, hsa2, hall⟩ :=
                ihc (fun c' hc' => hcs c' (List.mem_cons_of_mem _ hc')) s1 s' hinv1' hf
              refine ⟨hinv2', hsv1.trans hsv2, hsa1.trans hsa2, ?_⟩
              intro c' hc'
              rcases List.mem_cons.mp hc' with rfl | hc''
              · exact hsa2.subset hmemc
              · exact hall c' hc''
        split at h
        · cases h
        · rename_i st2 heq
          have hst' : (⟨st2.visited, node :: st2.acc⟩ : TopoState α) = st' := by
            injection h
          subst hst'
          have hchn : ∀ c ∈ ((edges.filter (fun e => decide (e.1 = node))).reverse).map
              (fun e => e.2), c ∈ nodes :=
            fun c hc => (hin _ (children_mem hc)).2
          obtain ⟨hinv2, hsv, hsa, hallc⟩ :=
            hfold _ hchn ⟨i :: st.visited, st.acc⟩ st2 hinv1 heq
          obtain ⟨hlite2, hperm2, hclo2, hord2, hself2⟩ := hinv2
          have hmapnd : (st2.visited.map (fun j => nodes.getD j.toNat default)).Nodup := by
            refine List.Nodup.map_on ?_ hlite2.1
            intro x hx y hy hxy
            have hbx := hlite2.2 x hx
            have hby := hlite2.2 y hy
            have h1 : x.toNat < nodes.length := by omega
            have h2 : y.toNat < nodes.length := by omega
            rw [List.getD_eq_getElem nodes default h1,
              List.getD_eq_getElem nodes default h2] at hxy
            have := (hnd.getElem_inj_iff).mp hxy
            omega
          have hnd2 : (st2.acc ++ (preds ++ [node])).Nodup := hperm2.nodup hmapnd
          have hnotin : node ∉ st2.acc := by
            intro hmem
            rw [List.nodup_append] at hnd2
            exact hnd2.2.2 hmem (by simp)
          refine ⟨⟨hlite2, ?_, ?_, ?_, ?_⟩, ?_, ?_, ?_, ?_⟩
          · exact hperm2.trans ((hswap st2.acc).trans (by simp))
          · intro x hx e he h1
            rcases List.mem_cons.mp hx with rfl | hx'
            · exact List.mem_cons_of_mem _ (hallc e.2 (mem_children he h1))
            · exact List.mem_cons_of_mem _ (hclo2 x hx' e he h1)
          · intro e he l₁ l₂ hdec
            cases l₁ with
            | nil =>
              simp only [List.nil_append] at hdec
              injection hdec with h1 h2
              right
              rw [← h2]
              exact hallc e.2 (mem_children he h1.symm)
            | cons y l₁' =>
              simp only [List.cons_append] at hdec
              injection hdec with h1 h2
              exact hord2 e he l₁' l₂ h2
          · intro x hx hxx
            rcases List.mem_cons.mp hx with rfl | hx'
            · exact hnotin (hallc x (by simpa using mem_children hxx rfl))
            · exact hself2 x hx' hxx
          · exact (List.suffix_cons i st.visited).trans hsv
          · exact hsa.trans (List.suffix_cons node st2.acc)
          · exact List.mem_cons_self _ _
          · exact hsv.subset (List.mem_cons_self _ _)

/-- Marking an unvisited node index and entering it onto the path preserves the
invariant. -/
theorem Inv.push (edges : List (α × α)) (nodes : List α) {preds : List α}
    {st : TopoState α} {node : α} {i : Int}
    (hinv : Inv edges nodes preds st) (hnode : node ∈ nodes)
    (hi : i = jsIndexOf nodes node) (hvis : i ∉ st.visited) :
    Inv edges nodes (preds ++ [node]) ⟨i :: st.visited, st.acc⟩ := by
  have hibounds := jsIndexOf_spec hnode
  have hn : nodes.getD i.toNat default = node := by
    rw [hi]
    exact hibounds.2.2
  have hswap : (st.acc ++ (preds ++ [node])).Perm (node :: (st.acc ++ preds)) := by
    have := @List.perm_middle α node (st.acc ++ preds) ([] : List α)
    simpa using this
  obtain ⟨⟨hndv, hbv⟩, hperm, hclo, hord, hself⟩ := hinv
  refine ⟨⟨List.nodup_cons.mpr ⟨hvis, hndv⟩, ?_⟩, ?_, hclo, hord, hself⟩
  · intro j hj
    rcases List.mem_cons.mp hj with rfl | hj'
    · rw [hi]
      exact ⟨hibounds.1, hibounds.2.1⟩
    · exact hbv j hj'
  · simp only [List.map_cons, hn]
    exact (hperm.cons node).trans hswap.symm

/-- The fuel supplied by `toposort` never runs out: each nested call marks a fresh
index, and a well-formed visited set cannot exceed `nodes.length` entries. -/
theorem visitF_no_fuelOut (edges : List (α × α)) (nodes : List α)
    (hin : ∀ e ∈ edges, e.1 ∈ nodes ∧ e.2 ∈ nodes) (hnd : nodes.Nodup) :
    ∀ (fuel : Nat) (node : α) (i : Int) (preds : List α) (st : TopoState α),
      node ∈ nodes → i = jsIndexOf nodes node →
      Inv edges nodes preds st →
      nodes.length + 1 ≤ fuel + st.visited.length →
      visitF edges nodes fuel node i preds st ≠ .error .fuelOut := by
  intro fuel
  induction fuel with
  | zero =>
    intro node i preds st _ _ hinv hbound
    have := LiteInv.length_le hinv.1
    omega
  | succ fuel ih =>
    intro node i preds st hnode hi hinv hbound
    rw [visitF]
    by_cases hpred : node ∈ preds
    · rw [if_pos hpred]
      simp
    · rw [if_neg hpred]
      by_cases hvis : i ∈ st.visited
      · rw [if_pos hvis]
        simp
      · rw [if_neg hvis]
        have hinv1 := Inv.push edges nodes hinv hnode hi hvis
        have hfoldnf : ∀ (cs : List α), (∀ c ∈ cs, c ∈ nodes) →
            ∀ (s : TopoState α), Inv edges nodes (preds ++ [node]) s →
            st.visited.length + 1 ≤ s.visited.length →
            List.foldlM (fun s c => visitF edges nodes fuel c (jsIndexOf nodes c)
              (preds ++ [node]) s) s cs ≠ .error .fuelOut := by
          intro cs
          induction cs with
          | nil =>
            intro _ s _ _
            rw [List.foldlM_nil]
            intro hcontra
            exact Except.noConfusion hcontra
          | cons c cs ihc =>
            intro hcs s hs hlen
            rw [List.foldlM_cons]
            cases hcall : visitF edges nodes fuel c (jsIndexOf nodes c) (preds ++ [node]) s with
            | error e =>
              have hne := ih c (jsIndexOf nodes c) (preds ++ [node]) s
                (hcs c (List.mem_cons_self _ _)) rfl hs (by omega)
              intro hcontra
              have hee : (Except.error e : Except TopoErr (TopoState α))
                  = .error .fuelOut := hcontra
              have he : e = TopoErr.fuelOut := by injection hee
              exact hne (by rw [hcall, he])
            | ok s1 =>
              obtain ⟨hinv1', hsv1, _, _, _⟩ := visitF_ok_inv edges nodes hin hnd fuel c
                (jsIndexOf nodes c) (preds ++ [node]) s s1 hcall
                (hcs c (List.mem_cons_self _ _)) rfl hs
              have hlen1 : s.visited.length ≤ s1.visited.length := hsv1.length_le
              have hrest := ihc (fun c' hc' => hcs c' (List.mem_cons_of_mem _ hc')) s1
                hinv1' (by omega)
              intro hcontra
              exact hrest hcontra
        intro hcontra
        split at hcontra
        · rename_i e heq
          have he : e = TopoErr.fuelOut := by injection hcontra
          exact hfoldnf _ (fun c hc => (hin _ (children_mem hc)).2) ⟨i :: st.visited, st.acc⟩
            hinv1 (by simp) (by rw [heq, he])
        · cases hcontra

/-- A relation chain from `a` to a final `b` yields transitive reachability. -/
theorem chain_append_transGen {r : α → α → Prop} :
    ∀ (l : List α) (a b : α), List.Chain r a (l ++ [b]) → Relation.TransGen r a b := by
  intro l
  induction l with
  | nil =>
    intro a b h
    cases h with
    | cons hab _ => exact Relation.TransGen.single hab
  | cons x xs ih =>
    intro a b h
    cases h with
    | cons hax htail => exact Relation.TransGen.head hax (ih x b htail)

/-- If `visit` throws the cyclic-dependency error and the call context is a
genuine edge path, the edge list really has a cycle. -/
theorem visitF_cyclic_sound (edges : List (α × α)) (nodes : List α) :
    ∀ (fuel : Nat) (node : α) (i : Int) (preds : List α) (st : TopoState α),
      visitF edges nodes fuel node i preds st = .error .cyclic →
      List.Chain' (edgeRel edges) (preds ++ [node]) →
      HasCycle edges := by
  intro fuel
  induction fuel with
  | zero =>
    intro node i preds st h
    rw [visitF] at h
    have he : TopoErr.fuelOut = TopoErr.cyclic := by injection h
    cases he
  | succ fuel ih =>
    intro node i preds st h hchain
    rw [visitF] at h
    by_cases hpred : node ∈ preds
    · obtain ⟨l₁, l₂, hdec⟩ := List.append_of_mem hpred
      subst hdec
      have hre : (l₁ ++ node :: l₂) ++ [node] = l₁ ++ (node :: (l₂ ++ [node])) := by
        simp
      rw [hre] at hchain
      have h2 : List.Chain' (edgeRel edges) (node :: (l₂ ++ [node])) :=
        hchain.right_of_append
      have h3 : List.Chain (edgeRel edges) node (l₂ ++ [node]) := h2
      exact ⟨node, chain_append_transGen l₂ node node h3⟩
    · rw [if_neg hpred] at h
      by_cases hvis : i ∈ st.visited
      · rw [if_pos hvis] at h
        cases h
      · rw [if_neg hvis] at h
        have hfoldcy : ∀ (cs : List α), (∀ c ∈ cs, (node, c) ∈ edges) →
            ∀ (s : TopoState α),
            List.foldlM (fun s c => visitF edges nodes fuel c (jsIndexOf nodes c)
              (preds ++ [node]) s) s cs = .error .cyclic →
            HasCycle edges := by
          intro cs
          induction cs with
          | nil =>
            intro _ s hf
            rw [List.foldlM_nil] at hf
            exact Except.noConfusion hf
          | cons c cs ihc =>
            intro hcs s hf
            rw [List.foldlM_cons] at hf
            cases hcall : visitF edges nodes fuel c (jsIndexOf nodes c) (preds ++ [node]) s with
            | error e =>
              rw [hcall] at hf
              have hee : (Except.error e : Except TopoErr (TopoState α))
                  = .error .cyclic := hf
              have he : e = TopoErr.cyclic := by injection hee
              subst he
              have hcc : List.Chain' (edgeRel edges) ((preds ++ [node]) ++ [c]) := by
                rw [List.chain'_append]
                refine ⟨hchain, List.chain'_singleton c, ?_⟩
                intro x hx y hy
                rw [List.getLast?_concat] at hx
                simp only [Option.mem_def, Option.some.injEq, List.head?_cons] at hx hy
                subst hx
                subst hy
                exact hcs c (List.mem_cons_self _ _)
              exact ih c (jsIndexOf nodes c) (preds ++ [node]) s hcall hcc
            | ok s1 =>
              rw [hcall] at hf
              exact ihc (fun c' hc' => hcs c' (List.mem_cons_of_mem _ hc')) s1 hf
        split at h
        · rename_i e heq
          have he : e = TopoErr.cyclic := by injection h
          subst he
          exact hfoldcy _ (fun c hc => children_mem hc) _ heq
        · cases h

/-- Reading a list back along `range` of its length reproduces it. -/
theorem map_range_getD (l : List α) :
    (List.range l.length).map (fun i => l.getD i default) = l := by
  refine List.ext_getElem (by simp) ?_
  intro i h1 h2
  simp [List.getD_eq_getElem, h2]

/-- The main-loop fold preserves the invariant and visits every listed index. -/
theorem mainFold_ok (edges : List (α × α)) (nodes : List α)
    (hin : ∀ e ∈ edges, e.1 ∈ nodes ∧ e.2 ∈ nodes) (hnd : nodes.Nodup) (fuel : Nat) :
    ∀ (prs : List (Nat × α)) (s s' : TopoState α),
      (∀ pr ∈ prs, pr.2 ∈ nodes ∧ ((pr.1 : Int) = jsIndexOf nodes pr.2)) →
      Inv edges nodes [] s →
      List.foldlM (fun s (pr : Nat × α) => if ((pr.1 : Int)) ∈ s.visited then Except.ok s
        else visitF edges nodes fuel pr.2 ((pr.1 : Int)) [] s) s prs = .ok s' →
      Inv edges nodes [] s' ∧ s.visited.IsSuffix s'.visited ∧ s.acc.IsSuffix s'.acc ∧
        ∀ pr ∈ prs, ((pr.1 : Int)) ∈ s'.visited := by
  intro prs
  induction prs with
  | nil =>
    intro s s' _ hs hf
    rw [List.foldlM_nil] at hf
    have hss : s = s' := by injection hf
    subst hss
    exact ⟨hs, List.suffix_rfl, List.suffix_rfl, by simp⟩
  | cons pr prs ihp =>
    intro s s' hprs hs hf
    rw [List.foldlM_cons] at hf
    by_cases hv : ((pr.1 : Int)) ∈ s.visited
    · rw [if_pos hv] at hf
      replace hf : List.foldlM (fun s (pr : Nat × α) =>
          if ((pr.1 : Int)) ∈ s.visited then Except.ok s
          else visitF edges nodes fuel pr.2 ((pr.1 : Int)) [] s) s prs = .ok s' := hf
      obtain ⟨hinv', hsv, hsa, hall⟩ :=
        ihp s s' (fun q hq => hprs q (List.mem_cons_of_mem _ hq)) hs hf
      refine ⟨hinv', hsv, hsa, ?_⟩
      intro q hq
      rcases List.mem_cons.mp hq with rfl | hq'
      · exact hsv.subset hv
      · exact hall q hq'
    · rw [if_neg hv] at hf
      cases hcall : visitF edges nodes fuel pr.2 ((pr.1 : Int)) [] s with
      | error e =>
        rw [hcall] at hf
        have : (Except.error e : Except TopoErr (TopoState α)) = .ok s' := hf
        cases this
      | ok s1 =>
        rw [hcall] at hf
        replace hf : List.foldlM (fun s (pr : Nat × α) =>
            if ((pr.1 : Int)) ∈ s.visited then Except.ok s
            else visitF edges nodes fuel pr.2 ((pr.1 : Int)) [] s) s1 prs = .ok s' := hf
        obtain ⟨hc1, hc2⟩ := hprs pr (List.mem_cons_self _ _)
        obtain ⟨hinv1, hsv1, hsa1, _, hiv⟩ :=
          visitF_ok_inv edges nodes hin hnd fuel pr.2 ((pr.1 : Int)) [] s s1 hcall hc1 hc2 hs
        obtain ⟨hinv', hsv2, hsa2, hall⟩ :=
          ihp s1 s' (fun q hq => hprs q (List.mem_cons_of_mem _ hq)) hinv1 hf
        refine ⟨hinv', hsv1.trans hsv2, hsa1.trans hsa2, ?_⟩
        intro q hq
        rcases List.mem_cons.mp hq with rfl | hq'
        · exact hsv2.subset hiv
        · exact hall q hq'

/-- The main-loop fold never runs out of fuel when supplied at least
`nodes.length + 1`. -/
theorem mainFold_no_fuelOut (edges : List (α × α)) (nodes : List α)
    (hin : ∀ e ∈ edges, e.1 ∈ nodes ∧ e.2 ∈ nodes) (hnd : nodes.Nodup)
    (fuel : Nat) (hfuel : nodes.length + 1 ≤ fuel) :
    ∀ (prs : List (Nat × α)) (s : TopoState α),
      (∀ pr ∈ prs, pr.2 ∈ nodes ∧ ((pr.1 : Int) = jsIndexOf nodes pr.2)) →
      Inv edges nodes [] s →
      List.foldlM (fun s (pr : Nat × α) => if ((pr.1 : Int)) ∈ s.visited then Except.ok s
        else visitF edges nodes fuel pr.2 ((pr.1 : Int)) [] s) s prs ≠ .error .fuelOut := by
  intro prs
  induction prs with
  | nil =>
    intro s _ _
    rw [List.foldlM_nil]
    intro hcontra
    exact Except.noConfusion hcontra
  | cons pr prs ihp =>
    intro s hprs hs
    rw [List.foldlM_cons]
    by_cases hv : ((pr.1 : Int)) ∈ s.visited
    · rw [if_pos hv]
      intro hcontra
      exact ihp s (fun q hq => hprs q (List.mem_cons_of_mem _ hq)) hs hcontra
    · rw [if_neg hv]
      obtain ⟨hc1, hc2⟩ := hprs pr (List.mem_cons_self _ _)
      cases hcall : visitF edges nodes fuel pr.2 ((pr.1 : Int)) [] s with
      | error e =>
        have hne := visitF_no_fuelOut edges nodes hin hnd fuel pr.2 ((pr.1 : Int)) [] s
          hc1 hc2 hs (by omega)
        intro hcontra
        have hee : (Except.error e : Except TopoErr (TopoState α)) = .error .fuelOut :=
          hcontra
        have he : e = TopoErr.fuelOut := by injection hee
        exact hne (by rw [hcall, he])
      | ok s1 =>
        obtain ⟨hinv1, _, _, _, _⟩ :=
          visitF_ok_inv edges nodes hin hnd fuel pr.2 ((pr.1 : Int)) [] s s1 hcall hc1 hc2 hs
        intro hcontra
        exact ihp s1 (fun q hq => hprs q (List.mem_cons_of_mem _ hq)) hinv1 hcontra

/-- If the main-loop fold reports a cyclic dependency, the edges really contain a
cycle. -/
theorem mainFold_cyclic (edges : List (α × α)) (nodes : List α) (fuel : Nat) :
    ∀ (prs : List (Nat × α)) (s : TopoState α),
      List.foldlM (fun s (pr : Nat × α) => if ((pr.1 : Int)) ∈ s.visited then Except.ok s
        else visitF edges nodes fuel pr.2 ((pr.1 : Int)) [] s) s prs = .error .cyclic →
      HasCycle edges := by
  intro prs
  induction prs with
  | nil =>
    intro s hf
    rw [List.foldlM_nil] at hf
    exact Except.noConfusion hf
  | cons pr prs ihp =>
    intro s hf
    rw [List.foldlM_cons] at hf
    by_cases hv : ((pr.1 : Int)) ∈ s.visited
    · rw [if_pos hv] at hf
      exact ihp s hf
    · rw [if_neg hv] at hf
      cases hcall : visitF edges nodes fuel pr.2 ((pr.1 : Int)) [] s with
      | error e =>
        rw [hcall] at hf
        have hee : (Except.error e : Except TopoErr (TopoState α)) = .error .cyclic := hf
        have he : e = TopoErr.cyclic := by injection hee
        subst he
        exact visitF_cyclic_sound edges nodes fuel pr.2 ((pr.1 : Int)) [] s hcall
          (by simpa using @List.chain'_singleton α (edgeRel edges) pr.2)
      | ok s1 =>
        rw [hcall] at hf
        exact ihp s1 hf

/-- The empty initial state satisfies the invariant. -/
theorem Inv.empty (edges : List (α × α)) (nodes : List α) :
    Inv edges nodes [] ⟨[], []⟩ := by
  refine ⟨⟨List.nodup_nil, by simp⟩, by simp, by simp, ?_, by simp⟩
  intro e _ l₁ l₂ hdec
  exact absurd hdec (by simp)

/-- The valid-index/first-index coupling of the main loop's `enum` entries. -/
theorem enum_couple {nodes : List α} (hnd : nodes.Nodup) :
    ∀ pr ∈ nodes.enum.reverse, pr.2 ∈ nodes ∧ ((pr.1 : Int) = jsIndexOf nodes pr.2) := by
  intro pr hpr
  rw [List.mem_reverse] at hpr
  obtain ⟨h1, h2, h3⟩ := enum_entry_spec hpr
  exact ⟨h3, (jsIndexOf_of_getD hnd pr.1 h1 h2).symm⟩

/-- `toposort` never reports fuel exhaustion. -/
theorem toposort_no_fuelOut (edges : List (α × α)) (nodes : List α)
    (hin : ∀ e ∈ edges, e.1 ∈ nodes ∧ e.2 ∈ nodes) (hnd : nodes.Nodup) :
    toposort nodes edges ≠ .error .fuelOut := by
  rw [toposort, toposortFuel]
  split
  · rename_i e heq
    intro hcontra
    have he : e = TopoErr.fuelOut := by injection hcontra
    subst he
    exact mainFold_no_fuelOut edges nodes hin hnd (nodes.length + 2) (by omega)
      nodes.enum.reverse ⟨[], []⟩ (enum_couple hnd) (Inv.empty edges nodes) heq
  · intro hcontra
    exact Except.noConfusion hcontra

/-- If `toposort` reports a cyclic dependency, a cycle exists. -/
theorem toposort_cyclic_sound (edges : List (α × α)) (nodes : List α)
    (h : toposort nodes edges = .error .cyclic) : HasCycle edges := by
  rw [toposort, toposortFuel] at h
  split at h
  · rename_i e heq
    have he : e = TopoErr.cyclic := by injection h
    subst he
    exact mainFold_cyclic edges nodes (nodes.length + 2) nodes.enum.reverse ⟨[], []⟩ heq
  · exact Except.noConfusion h

/-- Specification of a successful `toposort` run: the output is a permutation of
the nodes; each completed element's out-edges point strictly later in the list;
and no output element carries a self-loop. -/
theorem toposort_ok_spec (edges : List (α × α)) (nodes : List α)
    (hin : ∀ e ∈ edges, e.1 ∈ nodes ∧ e.2 ∈ nodes) (hnd : nodes.Nodup)
    {l : List α} (h : toposort nodes edges = .ok l) :
    l.Perm nodes ∧
    (∀ e ∈ edges, ∀ l₁ l₂, l = l₁ ++ e.1 :: l₂ → e.1 = e.2 ∨ e.2 ∈ l₂) ∧
    (∀ x ∈ l, (x, x) ∉ edges) := by
  rw [toposort, toposortFuel] at h
  split at h
  · exact Except.noConfusion h
  · rename_i st heq
    have hl : st.acc = l := by injection h
    obtain ⟨hinvF, _, _, hallv⟩ :=
      mainFold_ok edges nodes hin hnd (nodes.length + 2) nodes.enum.reverse ⟨[], []⟩ st
        (enum_couple hnd) (Inv.empty edges nodes) heq
    obtain ⟨⟨hndv, hbv⟩, hperm, hclo, hord, hself⟩ := hinvF
    have hcover : ∀ j : Nat, j < nodes.length → ((j : Int)) ∈ st.visited := by
      intro j hj
      exact hallv (j, nodes.getD j default)
        (by rw [List.mem_reverse]; exact mem_enum_of_lt hj)
    have hrangeNd : ((List.range nodes.length).map (fun j : Nat => (j : Int))).Nodup := by
      refine List.Nodup.map_on ?_ (List.nodup_range _)
      intro x _ y _ hxy
      omega
    have hpermV : st.visited.Perm ((List.range nodes.length).map (fun j : Nat => (j : Int))) := by
      rw [List.perm_ext_iff_of_nodup hndv hrangeNd]
      intro a
      constructor
      · intro ha
        have hb := hbv a ha
        refine List.mem_map.mpr ⟨a.toNat, ?_, by omega⟩
        rw [List.mem_range]
        omega
      · intro ha
        obtain ⟨j, hj, rfl⟩ := List.mem_map.mp ha
        rw [List.mem_range] at hj
        exact hcover j hj
    have hmapv := hpermV.map (fun j : Int => nodes.getD j.toNat default)
    have hrange_eq : (((List.range nodes.length).map (fun j : Nat => (j : Int))).map
        (fun j : Int => nodes.getD j.toNat default)) = nodes := by
      rw [List.map_map]
      have hc : ((fun j : Int => nodes.getD j.toNat default) ∘ (fun j : Nat => (j : Int)))
          = fun j : Nat => nodes.getD j default := by
        funext j
        simp
      rw [hc]
      exact map_range_getD nodes
    have haccperm : l.Perm nodes := by
      have h1 : (st.visited.map (fun j : Int => nodes.getD j.toNat default)).Perm st.acc := by
        simpa using hperm
      rw [← hl]
      exact h1.symm.trans (hmapv.trans (by rw [hrange_eq]))
    refine ⟨haccperm, ?_, ?_⟩
    · intro e he l₁ l₂ hdec
      exact hord e he l₁ l₂ (by rw [hl, hdec])
    · intro x hx
      exact hself x (by rw [hl]; exact hx)

end ToposortProof

/-- **C6.** For duplicate-free nodes and edges with endpoints among the nodes:
when the edges are acyclic, `toposort` returns an ordering of the nodes in which
every edge's source precedes its target; when the edges contain a cycle,
`toposort` throws the cyclic-dependency error. -/
theorem claim6_toposort {α : Type _} [DecidableEq α] [Inhabited α]
    (nodes : List α) (edges : List (α × α))
    (hnd : nodes.Nodup)
    (hin : ∀ e ∈ edges, e.1 ∈ nodes ∧ e.2 ∈ nodes) :
    (¬ HasCycle edges →
      ∃ l, toposort nodes edges = .ok l ∧ l.Perm nodes ∧
        ∀ e ∈ edges, jsIndexOf l e.1 < jsIndexOf l e.2) ∧
    (HasCycle edges → toposort nodes edges = .error .cyclic) := by
  have hedge_idx : ∀ {l : List α}, toposort nodes edges = .ok l →
      ∀ e ∈ edges, jsIndexOf l e.1 < jsIndexOf l e.2 := by
    intro l hok e he
    obtain ⟨hperm, hord, hself⟩ := toposort_ok_spec edges nodes hin hnd hok
    have hlnd : l.Nodup := (hperm.symm.nodup (hnd))
    have h1 : e.1 ∈ l := hperm.mem_iff.mpr (hin e he).1
    obtain ⟨l₁, l₂, hdec⟩ := List.append_of_mem h1
    have hne : e.1 ≠ e.2 := by
      intro hEq
      apply hself e.1 h1
      have hee : e = (e.1, e.1) := by
        rw [Prod.ext_iff]
        exact ⟨rfl, hEq.symm⟩
      rw [← hee]
      exact he
    have h2 : e.2 ∈ l₂ := (hord e he l₁ l₂ hdec).resolve_left hne
    rw [hdec]
    exact jsIndexOf_lt_of_decomp l₁ (hdec ▸ hlnd) h2
  constructor
  · intro hacyc
    cases hres : toposort nodes edges with
    | error e =>
      cases e
      · exact absurd hres (toposort_no_fuelOut edges nodes hin hnd)
      · exact absurd (toposort_cyclic_sound edges nodes hres) hacyc
    | ok l =>
      exact ⟨l, rfl, (toposort_ok_spec edges nodes hin hnd hres).1, hedge_idx hres⟩
  · intro hcyc
    cases hres : toposort nodes edges with
    | error e =>
      cases e
      · exact absurd hres (toposort_no_fuelOut edges nodes hin hnd)
      · rfl
    | ok l =>
      exfalso
      obtain ⟨x, hx⟩ := hcyc
      have hmono : ∀ a b, Relation.TransGen (edgeRel edges) a b →
          jsIndexOf l a < jsIndexOf l b := by
        intro a b htg
        induction htg with
        | single hrel => exact hedge_idx hres _ hrel
        | tail _ hrel ihe => exact lt_trans ihe (hedge_idx hres _ hrel)
      exact lt_irrefl _ (hmono x x hx)

/-- Witness for C6: the claim's concrete examples — nodes `["A","B","C"]` with
edges `[("A","B"),("B","C")]` yield exactly `["A","B","C"]`, and the cyclic edges
`[("A","B"),("B","A")]` throw the cyclic-dependency error. -/
theorem claim6_toposort_witness :
    toposort ["A", "B", "C"] [("A", "B"), ("B", "C")] = .ok ["A", "B", "C"] ∧
    toposort ["A", "B"] [("A", "B"), ("B", "A")] = .error .cyclic := by
  constructor
  · with_unfolding_all rfl
  · refine (claim6_toposort ["A", "B"] [("A", "B"), ("B", "A")] (by decide)
      (by decide)).2 ⟨"A", ?_⟩
    have h1 : edgeRel [("A", "B"), ("B", "A")] "A" "B" := by simp [edgeRel]
    have h2 : edgeRel [("A", "B"), ("B", "A")] "B" "A" := by simp [edgeRel]
    exact Relation.TransGen.head h1 (Relation.TransGen.single h2)

end BarsPlus

deriving instance DecidableEq for Except

namespace BarsPlus

/-! ## Theorems -/

/-- The guards of `initData` reduce it to the one- or two-dimension branch. -/
theorem initData_branch (g : G) (row : Row) (rest : List Row)
    (hr : g.rawData = row :: rest) (hg : g.defDims + g.defMeas = row.length) :
    initData g = if ((inDataOf g).headD []).length = 2
      then initDataOne g (inDataOf g) else initDataTwo g (inDataOf g) := by
  simp [initData, hr, hg]

/-- **C5.** If the first raw-data row is absent, or the declared dimension count
plus measure count differs from the first row's width, `initData` returns with the
state unchanged — `data`, `flatData`, `allDim2` and `deltas` are exactly as before
the call — and (being total in this model) raises no error. -/
theorem claim5_guard_noop (g : G) :
    (g.rawData = [] → initData g = g) ∧
    (∀ row rest, g.rawData = row :: rest → g.defDims + g.defMeas ≠ row.length →
      initData g = g) := by
  constructor
  · intro h
    simp [initData, h]
  · intro row rest h hne
    simp [initData, h, hne]

/-- Witness for C5: a mismatched input (2+1 declared vs. width 1) and an empty
input both leave the stale outputs untouched. -/
theorem claim5_guard_noop_witness :
    initData c5G = c5G ∧ initData { rawData := [] } = ({ rawData := [] } : G) :=
  ⟨(claim5_guard_noop c5G).2 [⟨0, 1, "x"⟩] [] rfl (by decide),
   (claim5_guard_noop { rawData := [] }).1 rfl⟩

/-- **C8.** When the configured bar-gap fraction equals 1, `barText` returns an
empty text string for every segment or total record. -/
theorem claim8_bar_gap (g : BarTextConfig) (d : Segment) (total : Bool)
    (h : g.barGap = 1) : (barText g d total).text = "" := by
  simp [barText, h]

/-- Witness for C8: a concrete configuration with `barGap = 1`, for both a plain
segment label and a total label. -/
theorem claim8_bar_gap_witness :
    ({ barGap := 1 } : BarTextConfig).barGap = 1 ∧
    (barText { barGap := 1 } c8Seg false).text = "" ∧
    (barText { barGap := 1 } c8Seg true).text = "" :=
  ⟨rfl, claim8_bar_gap _ c8Seg false rfl, claim8_bar_gap _ c8Seg true rfl⟩

/-- **C1** (the code contradicts the placeholder contract).  On `c1G`, category `B`
lacks the secondary label `"Q"` that appears in category `A`; the global secondary
order is `["P","Q"]`, yet `B`'s segment list contains only `"P"` — no placeholder
`"Q"` segment exists, because the absent-label branch of the category loop computes
`num = 0; txt = "-"` and then discards them (the `v.push` sits inside the `else`
branch only). -/
theorem claim1_placeholder_missing :
    (initData c1G).allDim2 = ["P", "Q"] ∧
    (((initData c1G).data.getD 1 default).values.getD []).map Segment.dim2 = ["P"] ∧
    ¬ (∃ s ∈ ((initData c1G).data.getD 1 default).values.getD [], s.dim2 = "Q") := by
  with_unfolding_all decide

/-- **C10.** After a successful `initData` pass, in two-dimension mode `flatData` is
exactly the concatenation of the categories' segment lists in category order; in
one-dimension mode categories and flat segments are in one-to-one positional
correspondence (same length, same labels). -/
theorem claim10_flat_concat (g : G) (row : Row) (rest : List Row)
    (hr : g.rawData = row :: rest)
    (hg : g.defDims + g.defMeas = row.length) :
    ((initData g).nDims = 2 →
      (initData g).flatData
        = ((initData g).data.map (fun c => c.values.getD [])).flatten) ∧
    ((initData g).nDims = 1 →
      (initData g).data.length = (initData g).flatData.length ∧
      (initData g).data.map Category.dim1 = (initData g).flatData.map Segment.dim1) := by
  rw [initData_branch g row rest hr hg]
  split
  · refine ⟨fun h2 => ?_, fun _ => ?_⟩
    · simp [initDataOne] at h2
    · simp [initDataOne, List.map_map]
  · refine ⟨fun _ => ?_, fun h1 => ?_⟩
    · simp only [initDataTwo, flatOf, catsOf, List.map_map]
      rfl
    · simp [initDataTwo] at h1

/-- Witness for C10: the two-dimension conjunct evaluated on `c1G`. -/
theorem claim10_flat_concat_witness :
    (initData c1G).flatData
      = ((initData c1G).data.map (fun c => c.values.getD [])).flatten :=
  (claim10_flat_concat c1G _ _ rfl (by decide)).1 (by with_unfolding_all decide)

/-- **C7.** Whenever the one-dimension branch runs (in particular for one declared
dimension with one measure, and for the reshaped single-measure case), `initData`
produces one segment per category (same count, same labels, positionally), every
segment has `offset = 0` and `qNum` equal to the raw measure value, the
one-dimension flag is set, and normalization is forced off regardless of the
configuration. -/
theorem claim7_one_dim (g : G) (row : Row) (rest : List Row)
    (hr : g.rawData = row :: rest)
    (hg : g.defDims + g.defMeas = row.length)
    (hne : inDataOf g ≠ [])
    (hlen : ∀ r ∈ inDataOf g, r.length = 2) :
    (initData g).nDims = 1 ∧
    (initData g).normalized = false ∧
    (initData g).data.length = (inDataOf g).length ∧
    (initData g).flatData.length = (inDataOf g).length ∧
    (∀ s ∈ (initData g).flatData, s.offset = 0) ∧
    (initData g).flatData.map Segment.qNum
      = (inDataOf g).map (fun d => (d.getD 1 default).qNum) ∧
    (initData g).data.map Category.dim1 = (initData g).flatData.map Segment.dim1 := by
  have hpath : ((inDataOf g).headD []).length = 2 := by
    cases h : inDataOf g with
    | nil => exact absurd h hne
    | cons a l =>
      simp only [h, List.headD_cons]
      exact hlen a (by rw [h]; exact List.mem_cons_self a l)
  rw [initData_branch g row rest hr hg, if_pos hpath]
  refine ⟨by simp [initDataOne], by simp [initDataOne], by simp [initDataOne],
    by simp [initDataOne], ?_, by simp [initDataOne, List.map_map], ?_⟩
  · intro s hs
    simp [initDataOne] at hs
    obtain ⟨d, _, hd⟩ := hs
    rw [← hd]
  · simp [initDataOne, List.map_map]

/-- Witness for C7: dimension values `["X","Y"]` with measure values `[10,20]`
(and normalization requested in the configuration). -/
theorem claim7_one_dim_witness :
    (initData c7G).nDims = 1 ∧
    (initData c7G).normalized = false ∧
    (initData c7G).data.length = (inDataOf c7G).length ∧
    (initData c7G).flatData.length = (inDataOf c7G).length ∧
    (∀ s ∈ (initData c7G).flatData, s.offset = 0) ∧
    (initData c7G).flatData.map Segment.qNum
      = (inDataOf c7G).map (fun d => (d.getD 1 default).qNum) ∧
    (initData c7G).data.map Category.dim1 = (initData c7G).flatData.map Segment.dim1 :=
  claim7_one_dim c7G _ _ rfl (by decide) (by with_unfolding_all decide)
    (by with_unfolding_all decide)

/-- The `q` accumulated by the collection pass is the first-seen order of the
secondary labels. -/
theorem scanOf_q (rows : List Row) :
    (scanOf rows).q = firstSeen (rows.map dim2T) := by
  suffices h : ∀ st : Scan, (rows.foldl scanStep st).q
      = (rows.map dim2T).foldl (fun acc x => if x ∈ acc then acc else acc ++ [x]) st.q by
    simpa [scanOf, firstSeen] using h {}
  induction rows with
  | nil => intro st; rfl
  | cons d ds ih =>
    intro st
    simp only [List.foldl_cons, List.map_cons]
    rw [ih]
    simp [scanStep]

/-- **C4.** Whenever the two-dimension branch runs and `toposort` fails (in
particular on cyclic adjacency edges), `initData` still returns normally — the
exception is consumed at its single call site — and the global secondary order
used is the first-seen order of the `dim2` values. -/
theorem claim4_cycle_fallback (g : G) (row : Row) (rest : List Row)
    (hr : g.rawData = row :: rest)
    (hg : g.defDims + g.defMeas = row.length)
    (hpath : ((inDataOf g).headD []).length ≠ 2)
    (e : TopoErr)
    (herr : toposort ((scanOf (inDataOf g)).q.map some) (scanOf (inDataOf g)).edges
      = .error e) :
    (initData g).nDims = 2 ∧
    (initData g).allDim2 = firstSeen ((inDataOf g).map dim2T) ∧
    (initData g).allCol2 = (scanOf (inDataOf g)).r := by
  have horder : orderOf (scanOf (inDataOf g))
      = ((scanOf (inDataOf g)).q, (scanOf (inDataOf g)).r) := by
    simp [orderOf, herr]
  rw [initData_branch g row rest hr hg, if_neg hpath]
  refine ⟨by simp [initDataTwo], ?_, ?_⟩ <;>
    simp [initDataTwo, horder, scanOf_q]

/-- Witness for C4: dim2 sequence `A,B` in category `X` and `B,A` in category `Y`
yields exactly the cyclic edges `[["A","B"],["B","A"]]`; `initData` falls back to
the first-seen order `["A","B"]`. -/
theorem claim4_cycle_fallback_witness :
    (scanOf (inDataOf c4G)).edges = [(some "A", some "B"), (some "B", some "A")] ∧
    toposort ((scanOf (inDataOf c4G)).q.map some) (scanOf (inDataOf c4G)).edges
      = .error .cyclic ∧
    (initData c4G).allDim2 = ["A", "B"] := by
  have herr : toposort ((scanOf (inDataOf c4G)).q.map some) (scanOf (inDataOf c4G)).edges
      = .error .cyclic := by with_unfolding_all decide
  have h := claim4_cycle_fallback c4G _ _ rfl (by decide) (by with_unfolding_all decide)
    .cyclic herr
  refine ⟨by with_unfolding_all decide, herr, ?_⟩
  rw [h.2.1]
  with_unfolding_all decide

/-- The category loop builds, independently of the accumulator, a segment list `S`
whose offsets are running prefix sums from `t`, whose total extends `t` by the sum
of its values, and whose values come from the groups' first rows. -/
theorem segLoop_spec (dd : Nat) :
    ∀ (qs : List String) (groups : List (String × List Row)) (t : ℚ),
      ∃ S : List Segment,
        (∀ v, segLoop dd qs groups t v = (v ++ S, t + (S.map Segment.qNum).sum)) ∧
        OffsetsFrom t S ∧
        (∀ s ∈ S, ∃ gr ∈ groups, s.qNum = groupBase gr) := by
  intro qs
  induction qs with
  | nil =>
    intro groups t
    exact ⟨[], fun v => by simp [segLoop], OffsetsFrom.nil t, by simp⟩
  | cons qi rest ih =>
    intro groups t
    match groups with
    | [] =>
      obtain ⟨S, h1, h2, h3⟩ := ih [] t
      refine ⟨S, fun v => ?_, h2, by simpa using h3⟩
      simp only [segLoop]
      exact h1 v
    | (k, rows) :: grest =>
      by_cases hk : k = qi
      · obtain ⟨S, h1, h2, h3⟩ := ih grest (t + ((rows.headI).getD 2 default).qNum)
        refine ⟨{ dim2 := qi, qNum := ((rows.headI).getD 2 default).qNum,
                  qText := ((rows.headI).getD 2 default).qText,
                  qElemNumber := if dd = 2 then
                      .pair ((rows.headI).getD 0 default).qElemNumber
                        ((rows.headI).getD 1 default).qElemNumber
                    else .scalar ((rows.headI).getD 0 default).qElemNumber,
                  offset := t } :: S, fun v => ?_, ?_, ?_⟩
        · simp only [segLoop, if_pos hk]
          rw [h1]
          refine Prod.ext ?_ ?_ <;> simp
          ring
        · exact OffsetsFrom.cons t _ S rfl h2
        · intro s hs
          rcases List.mem_cons.mp hs with rfl | hs'
          · exact ⟨(k, rows), List.mem_cons_self _ _, rfl⟩
          · obtain ⟨gr, hgr, hq⟩ := h3 s hs'
            exact ⟨gr, List.mem_cons_of_mem _ hgr, hq⟩
      · obtain ⟨S, h1, h2, h3⟩ := ih ((k, rows) :: grest) t
        refine ⟨S, fun v => ?_, h2, h3⟩
        simp only [segLoop, if_neg hk]
        exact h1 v

/-- `OffsetsFrom` is preserved by maps that keep `offset` and `qNum`. -/
theorem OffsetsFrom.map_pres {f : Segment → Segment}
    (hf : ∀ e, (f e).offset = e.offset ∧ (f e).qNum = e.qNum) :
    ∀ {b : ℚ} {l : List Segment}, OffsetsFrom b l → OffsetsFrom b (l.map f) := by
  intro b l h
  induction h with
  | nil b => exact .nil b
  | cons b s l hs _ ih =>
    simp only [List.map_cons]
    refine .cons b (f s) _ (by rw [(hf s).1, hs]) ?_
    rw [(hf s).2]
    exact ih

/-- In an `OffsetsFrom` list, each segment's offset is the base plus the sum of
the values before it. -/
theorem OffsetsFrom.offset_eq :
    ∀ (v₁ : List Segment) {b : ℚ} {l : List Segment}, OffsetsFrom b l →
      ∀ s v₂, l = v₁ ++ s :: v₂ → s.offset = b + (v₁.map Segment.qNum).sum := by
  intro v₁
  induction v₁ with
  | nil =>
    intro b l h s v₂ hl
    subst hl
    cases h with
    | cons _ _ _ hs _ => simpa using hs
  | cons x xs ih =>
    intro b l h s v₂ hl
    subst hl
    cases h with
    | cons _ _ _ _ htail =>
      rw [ih htail s v₂ rfl]
      simp only [List.map_cons, List.sum_cons]
      ring

/-- In an `OffsetsFrom` list of non-negative values, every offset is at least the
base. -/
theorem OffsetsFrom.le_of_mem :
    ∀ {b : ℚ} {l : List Segment}, OffsetsFrom b l → (∀ s ∈ l, 0 ≤ s.qNum) →
      ∀ s ∈ l, b ≤ s.offset := by
  intro b l h
  induction h with
  | nil => simp
  | cons base s' l' hoff _ ih =>
    intro hnn s hs
    rcases List.mem_cons.mp hs with rfl | hs'
    · rw [hoff]
    · have h0 : 0 ≤ s'.qNum := hnn s' (List.mem_cons_self _ _)
      have h1 := ih (fun x hx => hnn x (List.mem_cons_of_mem _ hx)) s hs'
      linarith

/-- In an `OffsetsFrom` list of non-negative values, offsets are monotone along the
list. -/
theorem OffsetsFrom.mono :
    ∀ (v₁ : List Segment) {b : ℚ} {l : List Segment}, OffsetsFrom b l →
      (∀ s ∈ l, 0 ≤ s.qNum) →
      ∀ s v₂, l = v₁ ++ s :: v₂ → ∀ s₂ ∈ v₂, s.offset ≤ s₂.offset := by
  intro v₁
  induction v₁ with
  | nil =>
    intro b l h hnn s v₂ hl s₂ hs₂
    subst hl
    cases h with
    | cons _ _ _ hoff htail =>
      have h1 := OffsetsFrom.le_of_mem htail
        (fun x hx => hnn x (List.mem_cons_of_mem _ hx)) s₂ hs₂
      have h0 : 0 ≤ s.qNum := hnn s (List.mem_cons_self _ _)
      rw [hoff]
      linarith
  | cons x xs ih =>
    intro b l h hnn s v₂ hl s₂ hs₂
    subst hl
    cases h with
    | cons _ _ _ _ htail =>
      exact ih htail (fun y hy => hnn y (List.mem_cons_of_mem _ hy)) s v₂ rfl s₂ hs₂

/-- Membership through `insertByIdx`. -/
theorem mem_insertByIdx {α : Type _} {f : α → Int} {x a : α} :
    ∀ {l : List α}, x ∈ insertByIdx f a l ↔ x = a ∨ x ∈ l := by
  intro l
  induction l with
  | nil => simp [insertByIdx]
  | cons y ys ih =>
    simp only [insertByIdx]
    split_ifs
    · simp [List.mem_cons]
    · simp only [List.mem_cons, ih]
      tauto

/-- `sortByIdx` does not change membership. -/
theorem mem_sortByIdx {α : Type _} {f : α → Int} {x : α} :
    ∀ {l : List α}, x ∈ sortByIdx f l ↔ x ∈ l := by
  intro l
  induction l with
  | nil => simp [sortByIdx]
  | cons y ys ih => simp [sortByIdx, mem_insertByIdx, ih]

/-- Rows inside a `nestBy` group are rows of the nested list. -/
theorem nestBy_sub {key : Row → String} {rows : List Row} {kr : String × List Row}
    (h : kr ∈ nestBy key rows) : ∀ r ∈ kr.2, r ∈ rows := by
  simp only [nestBy, List.mem_map] at h
  obtain ⟨k, _, rfl⟩ := h
  intro r hr
  exact (List.mem_filter.mp hr).1

/-- Rows inside the groups of a sorted nested category all come from the input
rows. -/
theorem sortCats_groups_sub {q p : List String} {inData : List Row}
    {kv : String × List (String × List Row)}
    (h : kv ∈ sortCats q p (nest2 inData)) :
    ∀ gr ∈ kv.2, ∀ r ∈ gr.2, r ∈ inData := by
  simp only [sortCats] at h
  rw [mem_sortByIdx] at h
  simp only [List.mem_map] at h
  obtain ⟨kv0, hkv0, rfl⟩ := h
  intro gr hgr r hr
  rw [mem_sortByIdx] at hgr
  simp only [nest2, List.mem_map] at hkv0
  obtain ⟨kw, hkw, rfl⟩ := hkv0
  exact nestBy_sub hkw r (nestBy_sub hgr r hr)

/-- Dissecting membership in `catsOf`. -/
theorem mem_catsOf {g : G} {q : List String} {n : List (String × List (String × List Row))}
    {cat : Category} (h : cat ∈ catsOf g q n) :
    ∃ kv ∈ n, cat = { dim1 := kv.1, offset := (buildCat g q kv).2,
                      values := some (buildCat g q kv).1 } := by
  simp only [catsOf, List.mem_map] at h
  obtain ⟨kv, hkv, heq⟩ := h
  exact ⟨kv, hkv, heq.symm⟩

/-- When all measure values in the rows are non-negative, so is every group base
(an empty group's base is the default 0). -/
theorem groupBase_nonneg {inData : List Row}
    (hpos : ∀ r ∈ inData, 0 ≤ (r.getD 2 default).qNum)
    {gr : String × List Row} (hsub : ∀ r ∈ gr.2, r ∈ inData) :
    0 ≤ groupBase gr := by
  cases h : gr.2 with
  | nil =>
    have h0 : groupBase gr = 0 := by
      rw [groupBase, h]
      with_unfolding_all rfl
    rw [h0]
  | cons r rs =>
    have hh : gr.2.headI = r := by rw [h]; rfl
    rw [groupBase, hh]
    exact hpos r (hsub r (by rw [h]; exact List.mem_cons_self _ _))

/-- Summing after dividing each entry by a constant. -/
theorem sum_map_div (l : List ℚ) (c : ℚ) : (l.map (fun x => x / c)).sum = l.sum / c := by
  induction l with
  | nil => simp
  | cons x xs ih => simp [ih, add_div]

/-- **C2.** For every category produced by a guard-passing, non-normalized
`initData` pass that carries a segment list: the category's `offset` equals the sum
of its segments' `qNum` values, each segment's `offset` equals the sum of the
values of the segments before it in the category's list, and offsets are
monotonically non-decreasing when all values are non-negative. -/
theorem claim2_stacking_invariant (g : G) (row : Row) (rest : List Row)
    (hr : g.rawData = row :: rest)
    (hg : g.defDims + g.defMeas = row.length)
    (hn : g.normalized = false)
    (cat : Category) (hcat : cat ∈ (initData g).data)
    (v : List Segment) (hv : cat.values = some v) :
    cat.offset = (v.map Segment.qNum).sum ∧
    (∀ v₁ s v₂, v = v₁ ++ s :: v₂ → s.offset = (v₁.map Segment.qNum).sum) ∧
    ((∀ s ∈ v, 0 ≤ s.qNum) →
      ∀ v₁ s v₂, v = v₁ ++ s :: v₂ → ∀ s₂ ∈ v₂, s.offset ≤ s₂.offset) := by
  rw [initData_branch g row rest hr hg] at hcat
  by_cases hpath : ((inDataOf g).headD []).length = 2
  · rw [if_pos hpath] at hcat
    exfalso
    simp only [initDataOne, List.mem_map] at hcat
    obtain ⟨d, _, heq⟩ := hcat
    rw [← heq] at hv
    simp at hv
  · rw [if_neg hpath] at hcat
    simp only [initDataTwo] at hcat
    obtain ⟨kv, hkv, rfl⟩ := mem_catsOf hcat
    obtain ⟨S, h1, h2, h3⟩ :=
      segLoop_spec g.defDims (orderOf (scanOf (inDataOf g))).1 kv.2 0
    have h1' := h1 []
    simp only [List.nil_append, zero_add] at h1'
    have hb : buildCat g (orderOf (scanOf (inDataOf g))).1 kv
        = (S.map (normPass g.normalized kv.1 ((S.map Segment.qNum).sum)),
           (S.map Segment.qNum).sum) := by
      simp [buildCat, h1']
    have hfix : ∀ e, (normPass g.normalized kv.1 ((S.map Segment.qNum).sum) e).offset
        = e.offset ∧
        (normPass g.normalized kv.1 ((S.map Segment.qNum).sum) e).qNum = e.qNum := by
      intro e
      simp [normPass, hn]
    have hveq : v = S.map (normPass g.normalized kv.1 ((S.map Segment.qNum).sum)) := by
      have hv' : (buildCat g (orderOf (scanOf (inDataOf g))).1 kv).1 = v := by
        simpa using hv
      rw [← hv', hb]
    have hsum : v.map Segment.qNum = S.map Segment.qNum := by
      rw [hveq, List.map_map]
      have hc : Segment.qNum ∘ normPass g.normalized kv.1 ((S.map Segment.qNum).sum)
          = Segment.qNum := funext fun e => (hfix e).2
      rw [hc]
    have hoffv : OffsetsFrom 0 v := by
      rw [hveq]
      exact OffsetsFrom.map_pres hfix h2
    refine ⟨?_, ?_, ?_⟩
    · show (buildCat g (orderOf (scanOf (inDataOf g))).1 kv).2 = (v.map Segment.qNum).sum
      rw [hb, hsum]
    · intro v₁ s v₂ hdec
      have := OffsetsFrom.offset_eq v₁ hoffv s v₂ hdec
      simpa using this
    · intro hnn v₁ s v₂ hdec s₂ hs₂
      exact OffsetsFrom.mono v₁ hoffv hnn s v₂ hdec s₂ hs₂

/-- Witness for C2: category `A` of `c1G` (segments `P` value 1, `Q` value 2);
`offset = 3 = 1 + 2`, segment offsets `[0, 1]`. -/
theorem claim2_stacking_invariant_witness :
    ((initData c1G).data.getD 0 default).offset
      = ((((initData c1G).data.getD 0 default).values.getD []).map Segment.qNum).sum ∧
    (((initData c1G).data.getD 0 default).values.getD []).map Segment.offset = [0, 1] ∧
    ((initData c1G).data.getD 0 default).offset = 3 := by
  have h := claim2_stacking_invariant c1G _ _ rfl (by decide) rfl
    ((initData c1G).data.getD 0 default) (by with_unfolding_all decide)
    (((initData c1G).data.getD 0 default).values.getD []) (by with_unfolding_all decide)
  exact ⟨h.1, by with_unfolding_all decide, by with_unfolding_all decide⟩

/-- **C3 counterexample.** The claim as stated fails on a normalized two-dimension
input with a negative value: `c3Neg` has measure values `-1` and `2` in one
category (total `1`), and the first normalized segment value is `-1 ∉ [0,1]`. -/
theorem claim3_counterexample :
    c3Neg.normalized = true ∧
    ¬ (∀ s ∈ (initData c3Neg).flatData, 0 ≤ s.qNum ∧ s.qNum ≤ 1) := by
  with_unfolding_all decide

/-- **C3 (amended).** For a guard-passing, normalized `initData` pass in which
every measure value is non-negative, every category with a positive raw total has
all segment `qNum` and `offset` values in `[0,1]`, segment values summing to
exactly 1, and `qTextPct` equal to the one-decimal percent formatting of `qNum`. -/
theorem claim3_normalized_amended (g : G) (row : Row) (rest : List Row)
    (hr : g.rawData = row :: rest)
    (hg : g.defDims + g.defMeas = row.length)
    (hn : g.normalized = true)
    (hpos : ∀ r ∈ inDataOf g, 0 ≤ (r.getD 2 default).qNum)
    (cat : Category) (hcat : cat ∈ (initData g).data)
    (v : List Segment) (hv : cat.values = some v)
    (ht : 0 < cat.offset) :
    (∀ s ∈ v, 0 ≤ s.qNum ∧ s.qNum ≤ 1 ∧ 0 ≤ s.offset ∧ s.offset ≤ 1 ∧
      s.qTextPct = fmtPct1 s.qNum) ∧
    (v.map Segment.qNum).sum = 1 := by
  rw [initData_branch g row rest hr hg] at hcat
  by_cases hpath : ((inDataOf g).headD []).length = 2
  · rw [if_pos hpath] at hcat
    exfalso
    simp only [initDataOne, List.mem_map] at hcat
    obtain ⟨d, _, heq⟩ := hcat
    rw [← heq] at hv
    simp at hv
  · rw [if_neg hpath] at hcat
    simp only [initDataTwo] at hcat
    obtain ⟨kv, hkv, rfl⟩ := mem_catsOf hcat
    obtain ⟨S, h1, h2, h3⟩ :=
      segLoop_spec g.defDims (orderOf (scanOf (inDataOf g))).1 kv.2 0
    have h1' := h1 []
    simp only [List.nil_append, zero_add] at h1'
    have hb : buildCat g (orderOf (scanOf (inDataOf g))).1 kv
        = (S.map (normPass g.normalized kv.1 ((S.map Segment.qNum).sum)),
           (S.map Segment.qNum).sum) := by
      simp [buildCat, h1']
    have hT : (0 : ℚ) < (S.map Segment.qNum).sum := by
      have ht' : 0 < (buildCat g (orderOf (scanOf (inDataOf g))).1 kv).2 := ht
      rw [hb] at ht'
      exact ht'
    have hSnn : ∀ e ∈ S, 0 ≤ e.qNum := by
      intro e he
      obtain ⟨gr, hgr, hq⟩ := h3 e he
      rw [hq]
      exact groupBase_nonneg hpos (sortCats_groups_sub hkv gr hgr)
    have hveq : v = S.map (normPass g.normalized kv.1 ((S.map Segment.qNum).sum)) := by
      have hv' : (buildCat g (orderOf (scanOf (inDataOf g))).1 kv).1 = v := by
        simpa using hv
      rw [← hv', hb]
    refine ⟨?_, ?_⟩
    · intro s hs
      rw [hveq] at hs
      obtain ⟨e, heS, rfl⟩ := List.mem_map.mp hs
      have hqe : 0 ≤ e.qNum := hSnn e heS
      have hle : e.qNum ≤ (S.map Segment.qNum).sum := by
        refine List.single_le_sum (fun x hx => ?_) _ (List.mem_map_of_mem _ heS)
        obtain ⟨y, hy, rfl⟩ := List.mem_map.mp hx
        exact hSnn y hy
      obtain ⟨l₁, l₂, hSdec⟩ := List.append_of_mem heS
      have hoff : e.offset = (l₁.map Segment.qNum).sum := by
        simpa using OffsetsFrom.offset_eq l₁ h2 e l₂ hSdec
      have hl₂nn : (0 : ℚ) ≤ (l₂.map Segment.qNum).sum := by
        apply List.sum_nonneg
        intro x hx
        obtain ⟨y, hy, rfl⟩ := List.mem_map.mp hx
        exact hSnn y (by rw [hSdec]; exact List.mem_append_right _ (List.mem_cons_of_mem _ hy))
      have hoff0 : 0 ≤ e.offset := by
        rw [hoff]
        apply List.sum_nonneg
        intro x hx
        obtain ⟨y, hy, rfl⟩ := List.mem_map.mp hx
        exact hSnn y (by rw [hSdec]; exact List.mem_append_left _ hy)
      have hoffle : e.offset ≤ (S.map Segment.qNum).sum := by
        rw [hoff, hSdec]
        simp only [List.map_append, List.sum_append, List.map_cons, List.sum_cons]
        linarith
      simp only [normPass, hn, if_true]
      exact ⟨div_nonneg hqe hT.le, (div_le_one hT).mpr hle, div_nonneg hoff0 hT.le,
        (div_le_one hT).mpr hoffle, trivial⟩
    · rw [hveq, List.map_map]
      have hc : Segment.qNum ∘ normPass g.normalized kv.1 ((S.map Segment.qNum).sum)
          = fun e => e.qNum / (S.map Segment.qNum).sum :=
        funext fun e => by simp [normPass, hn]
      rw [hc]
      have hms : S.map (fun e => e.qNum / (S.map Segment.qNum).sum)
          = (S.map Segment.qNum).map (fun x => x / (S.map Segment.qNum).sum) := by
        rw [List.map_map]
        rfl
      rw [hms, sum_map_div, div_self hT.ne']

/-- Witness for C3 (amended): category `A` of `c3G` (values 1 and 3, total 4):
normalized values `1/4` and `3/4`, offsets in `[0,1]`, sum 1, percent texts. -/
theorem claim3_normalized_amended_witness :
    (∀ s ∈ ((initData c3G).data.getD 0 default).values.getD [],
      0 ≤ s.qNum ∧ s.qNum ≤ 1 ∧ 0 ≤ s.offset ∧ s.offset ≤ 1 ∧
      s.qTextPct = fmtPct1 s.qNum) ∧
    ((((initData c3G).data.getD 0 default).values.getD []).map Segment.qNum).sum = 1 :=
  claim3_normalized_amended c3G _ _ rfl (by decide) rfl
    (by with_unfolding_all decide)
    ((initData c3G).data.getD 0 default) (by with_unfolding_all decide)
    (((initData c3G).data.getD 0 default).values.getD []) (by with_unfolding_all decide)
    (by with_unfolding_all decide)

/-- **C9.** With the legend shown at a left/right position (and a valid legend size
code): if the inner width (container width minus left and right margins) is at most
200 the legend geometry reports "unused"; if it is at least 201 a usable legend
block with positive width is produced. -/
theorem claim9_legend_boundary (c : ChartConfig)
    (hs : c.showLegend = true)
    (hp : c.legendPosition = "L" ∨ c.legendPosition = "R")
    (hsz : c.legendSize = "W" ∨ c.legendSize = "M" ∨ c.legendSize = "N") :
    (innerWidth0 c ≤ 200 → (initChartLayout c).lgn.use = "") ∧
    (201 ≤ innerWidth0 c →
      (initChartLayout c).lgn.use = c.legendPosition ∧
      0 < (initChartLayout c).lgn.width) := by
  have hpos : 0 < pick3 c.legendSize 4 6 10 := by
    rcases hsz with h | h | h <;> simp [pick3, h]
  constructor
  · intro hcond
    rcases hp with h | h <;>
      simp [initChartLayout, hs, h, lgnInit] <;>
      split_ifs with hA <;>
      first
        | rfl
        | simp
        | exact absurd hcond hA
  · intro hcond
    rcases hp with h | h <;>
      simp [initChartLayout, hs, h, lgnInit] <;>
      split_ifs with hA <;>
      first
        | exact absurd hA (by linarith)
        | exact ⟨rfl, div_pos (by linarith) hpos⟩

/-- Witness for C9: width 240 gives inner width exactly 200 and the legend is
dropped; width 241 gives inner width 201 and a usable right-hand legend of
positive width. -/
theorem claim9_legend_boundary_witness :
    (innerWidth0 c9Lo ≤ 200 ∧ (initChartLayout c9Lo).lgn.use = "") ∧
    (201 ≤ innerWidth0 c9Hi ∧ (initChartLayout c9Hi).lgn.use = c9Hi.legendPosition ∧
      0 < (initChartLayout c9Hi).lgn.width) := by
  have hLo := claim9_legend_boundary c9Lo (by rfl) (Or.inr (by rfl))
    (Or.inr (Or.inl (by rfl)))
  have hHi := claim9_legend_boundary c9Hi (by rfl) (Or.inr (by rfl))
    (Or.inr (Or.inl (by rfl)))
  have hLoW : innerWidth0 c9Lo ≤ 200 := by with_unfolding_all decide
  have hHiW : (201 : ℚ) ≤ innerWidth0 c9Hi := by with_unfolding_all decide
  exact ⟨⟨hLoW, hLo.1 hLoW⟩, ⟨hHiW, hHi.2 hHiW⟩⟩

end BarsPlus
